import Mathlib

/-!
Verification of the DNA-health core of this repository: the Aho-Corasick
automaton in src/algorithm/dna_health.rs (trie construction, breadth-first
failure-link linking, streaming search with overlapping-match recovery) and
the range-filtered min/max aggregation built on top of it.

The Rust code is embedded shallowly:
* a HashMap from characters to child indices becomes an association list
  (insertion appends, lookup takes the first matching key);
* the unbounded while-loops that walk failure chains are given fuel equal to
  the number of automaton states, which is proved sufficient because state
  depth decreases strictly along every failure chain;
* the iteration order over HashMap entries in the breadth-first linking phase
  is nondeterministic in Rust, so the linking phase is parameterised by an
  enumeration function sigma giving, for each state, the order in which its
  child entries are listed; the canonical build uses the stored order.
* i64 arithmetic is modelled by Int (the aggregation initials are the exact
  i64 extremal values), and the i32-to-usize cast in dna_health is modelled
  by reduction modulo 2 to the 64.
-/

set_option maxHeartbeats 1000000

namespace DnaHealth

/-- Node of the Aho-Corasick trie, mirroring struct TrieNode: children as an
association list from characters to node indices, a failure link, and the
list of (gene index, health value) pairs ending at this node. -/
structure TrieNode where
  children : List (Char × Nat)
  failure : Nat
  output : List (Nat × Int)
deriving Repr, DecidableEq

/-- Fresh node, mirroring TrieNode::new. -/
def TrieNode.new : TrieNode := ⟨[], 0, []⟩

/-- The automaton state table, mirroring the field trie: Vec of AhoCorasick. -/
abbrev Trie := List TrieNode

/-- Read a node of the table; all accesses performed by the code are
in bounds, so the default is never observable. -/
def getNode (t : Trie) (v : Nat) : TrieNode := t.getD v TrieNode.new

/-- Lookup in an association list, mirroring HashMap get on the children map. -/
def findEntry : List (Char × Nat) → Char → Option Nat
  | [], _ => none
  | e :: rest, c => if e.1 = c then some e.2 else findEntry rest c

/-- Transition lookup trie of a state, mirroring children get. -/
def findChild (t : Trie) (v : Nat) (c : Char) : Option Nat :=
  findEntry (getNode t v).children c

/-- Walk of add_pattern over the characters of a pattern: follow an existing
transition when present, otherwise push a fresh node and add the edge.
Returns the updated table and the terminal state. -/
def addPatternGo : Trie → Nat → List Char → Trie × Nat
  | t, cur, [] => (t, cur)
  | t, cur, c :: cs =>
    match findChild t cur c with
    | some nxt => addPatternGo t nxt cs
    | none =>
      let nn := t.length
      let t1 := t ++ [TrieNode.new]
      let t2 := t1.set cur
        { getNode t1 cur with children := (getNode t1 cur).children ++ [(c, nn)] }
      addPatternGo t2 nn cs

/-- Embedding of AhoCorasick::add_pattern: walk the trie creating states on
demand, then append the (gene index, health value) entry at the terminal
state reached. -/
def add_pattern (t : Trie) (pattern : List Char) (gene_index : Nat)
    (health_value : Int) : Trie :=
  let r := addPatternGo t 0 pattern
  r.1.set r.2
    { getNode r.1 r.2 with output := (getNode r.1 r.2).output ++ [(gene_index, health_value)] }

/-- Embedding of the trie-building loop of dna_health: insert every gene with
its index and health value, starting from the one-node automaton of
AhoCorasick::new. -/
def buildTrie (genes : List (List Char)) (health : List Int) : Trie :=
  genes.enum.foldl (fun t p => add_pattern t p.2 p.1 (health.getD p.1 0)) [TrieNode.new]

/-- The failure-chain climb shared by build_failure_links and search: while
the state is not the root and has no transition on c, follow its failure
link. Fueled; fuel equal to the number of states is proved sufficient. -/
def climb (t : Trie) (c : Char) : Nat → Nat → Nat
  | 0, f => f
  | fuel + 1, f =>
    if f ≠ 0 ∧ (findChild t f c).isNone then climb t c fuel (getNode t f).failure
    else f

/-- Climb and then take the transition on c when one exists: this is both the
state update of search and the value assigned to a failure link during
linking. -/
def goto (t : Trie) (fuel : Nat) (s : Nat) (c : Char) : Nat :=
  match findChild t (climb t c fuel s) c with
  | some nxt => nxt
  | none => climb t c fuel s

/-- Overwrite the failure link of one state. -/
def setFailure (t : Trie) (v f : Nat) : Trie :=
  t.set v { getNode t v with failure := f }

/-- Body of the inner loop of build_failure_links for one (symbol, child)
entry of the dequeued state: recompute the failure value starting from the
failure link of the dequeued state and store it at the child. -/
def processChild (current : Nat) (t : Trie) (e : Char × Nat) : Trie :=
  setFailure t e.2 (goto t t.length (getNode t current).failure e.1)

/-- The BFS loop of build_failure_links: dequeue a state, link each of its
children and enqueue them. The enumeration sigma fixes the iteration order
over the children map of each state. -/
def bfsGo (σ : Nat → List (Char × Nat)) : Nat → Trie → List Nat → Trie
  | 0, t, _ => t
  | _ + 1, t, [] => t
  | fuel + 1, t, current :: rest =>
    let kids := σ current
    bfsGo σ fuel (kids.foldl (processChild current) t) (rest ++ kids.map Prod.snd)

/-- Embedding of AhoCorasick::build_failure_links, parameterised by the
iteration order over each children map: set the failure link of every root
child to the root and enqueue it, then run the BFS loop. -/
def buildFailureLinksWith (σ : Nat → List (Char × Nat)) (t : Trie) : Trie :=
  let rootKids := (σ 0).map Prod.snd
  bfsGo σ t.length (rootKids.foldl (fun tt ch => setFailure tt ch 0) t) rootKids

/-- Canonical build_failure_links: iterate children in stored order. -/
def build_failure_links (t : Trie) : Trie :=
  buildFailureLinksWith (fun v => (getNode t v).children) t

/-- The match-collection walk of search: starting at the state reached after
a text symbol, walk the failure chain while the state is not the root,
summing the health values of output entries whose gene index lies in the
query range. -/
def collectGo (t : Trie) (start_gene end_gene : Nat) : Nat → Nat → Int
  | 0, _ => 0
  | fuel + 1, node =>
    if node = 0 then 0
    else ((getNode t node).output.map fun p =>
            if start_gene ≤ p.1 ∧ p.1 ≤ end_gene then p.2 else 0).sum
         + collectGo t start_gene end_gene fuel (getNode t node).failure

/-- The text loop of search: for each symbol, climb and step, then collect
all matches ending at this position. -/
def searchGo (t : Trie) (start_gene end_gene : Nat) : Nat → Int → List Char → Int
  | _, acc, [] => acc
  | s, acc, c :: cs =>
    let s2 := goto t t.length s c
    searchGo t start_gene end_gene s2
      (acc + collectGo t start_gene end_gene t.length s2) cs

/-- Embedding of AhoCorasick::search: stream the text through the automaton
from the root and return the accumulated health of all matches whose gene
index lies in [start_gene, end_gene]. -/
def search (t : Trie) (text : List Char) (start_gene end_gene : Nat) : Int :=
  searchGo t start_gene end_gene 0 0 text

/-- Largest i64 value, the initial running minimum of dna_health. -/
def i64Max : Int := 9223372036854775807

/-- Smallest i64 value, the initial running maximum of dna_health. -/
def i64Min : Int := -9223372036854775808

/-- The cast start as usize applied to an i32 value: sign-extend and reduce
modulo 2 to the 64. -/
def usizeOfI32 (x : Int) : Nat := (x % (18446744073709551616 : Int)).toNat

/-- Health sum of one DNA strand as computed inside the query loop of
dna_health. -/
def strandSum (t : Trie) (q : Int × Int × List Char) : Int :=
  search t q.2.2 (usizeOfI32 q.1) (usizeOfI32 q.2.1)

/-- Embedding of dna_health: build the automaton from all genes, link it,
fold the query batch maintaining running minimum and maximum (initialised to
the extremal i64 values), and render the pair as two decimal integers
separated by one space. -/
def dna_health (genes : List (List Char)) (health : List Int)
    (strands : List (Int × Int × List Char)) : String :=
  let t := build_failure_links (buildTrie genes health)
  let mm := strands.foldl
    (fun (p : Int × Int) q =>
      let h := strandSum t q
      (min p.1 h, max p.2 h)) (i64Max, i64Min)
  toString mm.1 ++ " " ++ toString mm.2

/-- Per-strand sum of the reference scanner dna_health_naive: slice the genes
and health values to the query range, then for every position of the strand
add the health of every sliced gene that starts there. -/
def naiveStrandSum (genes : List (List Char)) (health : List Int)
    (start_gene end_gene : Nat) (dna : List Char) : Int :=
  let valid_genes :=
    ((genes.drop start_gene).take (end_gene + 1 - start_gene)).zip
      ((health.drop start_gene).take (end_gene + 1 - start_gene))
  ((List.range dna.length).map fun i =>
    (valid_genes.map fun g => if g.1.isPrefixOf (dna.drop i) then g.2 else 0).sum).sum

/-- Modelled from the spec: the build interface of section 6 is required to
fail with InvalidPattern when some pattern is empty; no such validation
exists in src, so the spec-side builder is modelled here for comparison
with the code-side buildTrie. -/
def specBuild (genes : List (List Char)) (health : List Int) :
    Except String Trie :=
  if genes.any fun g => g.isEmpty then .error "InvalidPattern"
  else .ok (buildTrie genes health)

/-! ### Paths in the trie -/

/-- Follow the trie transitions for a whole string, starting at cur. -/
def findNodeFrom (t : Trie) : Nat → List Char → Option Nat
  | cur, [] => some cur
  | cur, c :: cs =>
    match findChild t cur c with
    | some nxt => findNodeFrom t nxt cs
    | none => none

/-- State reached from the root by a string, when the string is a path of
the trie. -/
def findNode (t : Trie) (w : List Char) : Option Nat := findNodeFrom t 0 w

/-- State of the longest suffix of w that is a path of the trie; total
because the empty string always reaches the root. -/
def suffNode (t : Trie) : List Char → Nat
  | [] => 0
  | c :: w =>
    match findNode t (c :: w) with
    | some u => u
    | none => suffNode t w

/-! ### Association-list lemmas -/

theorem findEntry_mem {l : List (Char × Nat)} {c : Char} {u : Nat}
    (h : findEntry l c = some u) : (c, u) ∈ l := by
  induction l with
  | nil => simp [findEntry] at h
  | cons e rest ih =>
    by_cases hc : e.1 = c
    · rw [findEntry, if_pos hc] at h
      obtain rfl : e.2 = u := Option.some.inj h
      have he : (c, e.2) = e := by rw [← hc]
      rw [he]
      exact List.mem_cons_self _ _
    · rw [findEntry, if_neg hc] at h
      exact List.mem_cons_of_mem _ (ih h)

theorem mem_findEntry {l : List (Char × Nat)} (hnd : (l.map Prod.fst).Nodup)
    {c : Char} {u : Nat} (h : (c, u) ∈ l) : findEntry l c = some u := by
  induction l with
  | nil => simp at h
  | cons e rest ih =>
    rw [List.map_cons, List.nodup_cons] at hnd
    rcases List.mem_cons.mp h with heq | hmem
    · rw [findEntry, ← heq, if_pos rfl]
    · have hne : e.1 ≠ c := by
        intro hc
        exact hnd.1 (hc ▸ (List.mem_map_of_mem Prod.fst hmem))
      rw [findEntry, if_neg hne]
      exact ih hnd.2 hmem

theorem findEntry_eq_none {l : List (Char × Nat)} {c : Char} :
    findEntry l c = none ↔ ∀ e ∈ l, e.1 ≠ c := by
  induction l with
  | nil => simp [findEntry]
  | cons e rest ih =>
    by_cases hc : e.1 = c
    · simp [findEntry, hc]
    · simp [findEntry, hc, ih]

theorem findEntry_append_some {l1 l2 : List (Char × Nat)} {c : Char} {u : Nat}
    (h : findEntry l1 c = some u) : findEntry (l1 ++ l2) c = some u := by
  induction l1 with
  | nil => simp [findEntry] at h
  | cons e rest ih =>
    by_cases hc : e.1 = c
    · rw [findEntry, if_pos hc] at h
      rw [List.cons_append, findEntry, if_pos hc, h]
    · rw [findEntry, if_neg hc] at h
      rw [List.cons_append, findEntry, if_neg hc]
      exact ih h

theorem findEntry_append_none {l1 l2 : List (Char × Nat)} {c : Char}
    (h : findEntry l1 c = none) : findEntry (l1 ++ l2) c = findEntry l2 c := by
  induction l1 with
  | nil => simp
  | cons e rest ih =>
    by_cases hc : e.1 = c
    · rw [findEntry, if_pos hc] at h
      exact absurd h (by simp)
    · rw [findEntry, if_neg hc] at h
      rw [List.cons_append, findEntry, if_neg hc]
      exact ih h

/-! ### Node-access lemmas -/

theorem getNode_eq_get? {t : Trie} {v : Nat} :
    getNode t v = (t[v]?).getD TrieNode.new := by
  rw [getNode, List.getD_eq_getElem?_getD]

theorem getNode_append_left {t ts : Trie} {v : Nat} (h : v < t.length) :
    getNode (t ++ ts) v = getNode t v := by
  rw [getNode_eq_get?, getNode_eq_get?, List.getElem?_append_left h]

theorem getNode_beyond {t : Trie} {v : Nat} (h : t.length ≤ v) :
    getNode t v = TrieNode.new := by
  rw [getNode_eq_get?, List.getElem?_eq_none h]
  rfl

theorem getNode_set_same {t : Trie} {v : Nat} {nd : TrieNode} (h : v < t.length) :
    getNode (t.set v nd) v = nd := by
  rw [getNode_eq_get?, List.getElem?_set_eq_of_lt nd h]
  rfl

theorem getNode_set_other {t : Trie} {v u : Nat} {nd : TrieNode} (h : u ≠ v) :
    getNode (t.set v nd) u = getNode t u := by
  rw [getNode_eq_get?, getNode_eq_get?, List.getElem?_set_ne (Ne.symm h)]

theorem length_setFailure {t : Trie} {v f : Nat} :
    (setFailure t v f).length = t.length := by
  rw [setFailure, List.length_set]

theorem getNode_setFailure_same {t : Trie} {v f : Nat} (h : v < t.length) :
    getNode (setFailure t v f) v = { getNode t v with failure := f } := by
  rw [setFailure, getNode_set_same h]

theorem getNode_setFailure_other {t : Trie} {v f u : Nat} (h : u ≠ v) :
    getNode (setFailure t v f) u = getNode t u := by
  rw [setFailure, getNode_set_other h]

/-! ### Suffix utilities -/

theorem suffix_of_suffix_of_length_le {u s w : List Char} (hu : u <:+ w)
    (hs : s <:+ w) (h : u.length ≤ s.length) : u <:+ s := by
  obtain ⟨p, hp⟩ := hu
  obtain ⟨q, hq⟩ := hs
  have hw : q ++ s = p ++ u := hq.trans hp.symm
  have hlq : q.length ≤ p.length := by
    have := congrArg List.length hw
    simp only [List.length_append] at this
    omega
  refine ⟨p.drop q.length, ?_⟩
  calc p.drop q.length ++ u = (p ++ u).drop q.length :=
        (List.drop_append_of_le_length hlq).symm
    _ = (q ++ s).drop q.length := by rw [hw]
    _ = s := by simp

theorem suffix_tail_of_ne {u s : List Char} (hu : u <:+ s) (hne : u ≠ s) :
    u <:+ s.tail := by
  rcases s with _ | ⟨a, s⟩
  · exact absurd (List.suffix_nil.mp hu) hne
  · rcases List.suffix_cons_iff.mp hu with h | h
    · exact absurd h hne
    · exact h

/-! ### Well-formedness of the trie

The invariant carries a string assignment str: the symbol sequence spelled by
each state. It packages the facts that edges increase the index, that the
children keys of every state are distinct, that distinct states spell
distinct strings, and that every state is reachable from the root by its own
string. -/

structure TrieInv (t : Trie) (str : Nat → List Char) : Prop where
  ne : t ≠ []
  str_root : str 0 = []
  edge : ∀ v c u, v < t.length → (c, u) ∈ (getNode t v).children →
    v < u ∧ u < t.length ∧ str u = str v ++ [c]
  keys : ∀ v, ((getNode t v).children.map Prod.fst).Nodup
  inj : ∀ u v, u < t.length → v < t.length → str u = str v → u = v
  reach : ∀ v, v < t.length → findNode t (str v) = some v

theorem TrieInv.root_lt {t : Trie} {str : Nat → List Char}
    (inv : TrieInv t str) : 0 < t.length := List.length_pos.mpr inv.ne

theorem TrieInv.findChild_iff {t : Trie} {str : Nat → List Char}
    (inv : TrieInv t str) {v : Nat} {c : Char} {u : Nat} :
    findChild t v c = some u ↔ (c, u) ∈ (getNode t v).children :=
  ⟨findEntry_mem, mem_findEntry (inv.keys v)⟩

theorem TrieInv.fnf_sound {t : Trie} {str : Nat → List Char}
    (inv : TrieInv t str) :
    ∀ (w : List Char) (cur x : Nat), cur < t.length →
      findNodeFrom t cur w = some x → x < t.length ∧ str x = str cur ++ w := by
  intro w
  induction w with
  | nil =>
    intro cur x hc h
    obtain rfl : cur = x := Option.some.inj h
    exact ⟨hc, by simp⟩
  | cons c cs ih =>
    intro cur x hc h
    rw [findNodeFrom] at h
    cases hfc : findChild t cur c with
    | none => rw [hfc] at h; cases h
    | some nxt =>
      rw [hfc] at h
      obtain ⟨-, hlt2, hstr⟩ := inv.edge cur c nxt hc (inv.findChild_iff.mp hfc)
      obtain ⟨hx, hsx⟩ := ih nxt x hlt2 h
      refine ⟨hx, ?_⟩
      rw [hsx, hstr, List.append_assoc]
      rfl

theorem TrieInv.findNode_sound {t : Trie} {str : Nat → List Char}
    (inv : TrieInv t str) {w : List Char} {x : Nat}
    (h : findNode t w = some x) : x < t.length ∧ str x = w := by
  obtain ⟨hx, hs⟩ := inv.fnf_sound w 0 x inv.root_lt h
  exact ⟨hx, by rw [hs, inv.str_root]; rfl⟩

theorem fnf_append (t : Trie) :
    ∀ (w1 w2 : List Char) (cur : Nat),
      findNodeFrom t cur (w1 ++ w2)
        = (findNodeFrom t cur w1).bind fun m => findNodeFrom t m w2 := by
  intro w1
  induction w1 with
  | nil => intro w2 cur; rfl
  | cons c cs ih =>
    intro w2 cur
    rw [List.cons_append, findNodeFrom, findNodeFrom]
    cases findChild t cur c with
    | none => rfl
    | some nxt => exact ih w2 nxt

theorem findNode_append (t : Trie) (w1 w2 : List Char) :
    findNode t (w1 ++ w2)
      = (findNode t w1).bind fun m => findNodeFrom t m w2 :=
  fnf_append t w1 w2 0

theorem findNode_prefix_closed {t : Trie} {w1 w2 : List Char} {x : Nat}
    (h : findNode t (w1 ++ w2) = some x) : ∃ m, findNode t w1 = some m := by
  rw [findNode_append] at h
  cases hm : findNode t w1 with
  | none => rw [hm] at h; cases h
  | some m => exact ⟨m, rfl⟩

theorem TrieInv.suffNode_lt {t : Trie} {str : Nat → List Char}
    (inv : TrieInv t str) : ∀ w, suffNode t w < t.length := by
  intro w
  induction w with
  | nil => exact inv.root_lt
  | cons c cs ih =>
    rw [suffNode]
    cases h : findNode t (c :: cs) with
    | none => exact ih
    | some u => exact (inv.findNode_sound h).1

theorem TrieInv.str_suffNode_suffix {t : Trie} {str : Nat → List Char}
    (inv : TrieInv t str) : ∀ w, str (suffNode t w) <:+ w := by
  intro w
  induction w with
  | nil => rw [suffNode, inv.str_root]
  | cons c cs ih =>
    rw [suffNode]
    cases h : findNode t (c :: cs) with
    | none => exact ih.trans (List.suffix_cons c cs)
    | some u => rw [(inv.findNode_sound h).2]

theorem TrieInv.suffNode_longest {t : Trie} {str : Nat → List Char}
    (inv : TrieInv t str) :
    ∀ (w u : List Char) (x : Nat), u <:+ w → findNode t u = some x →
      u <:+ str (suffNode t w) := by
  intro w
  induction w with
  | nil =>
    intro u x hu _
    rw [List.suffix_nil.mp hu, suffNode, inv.str_root]
  | cons c cs ih =>
    intro u x hu hx
    rw [suffNode]
    cases h : findNode t (c :: cs) with
    | some v => rw [(inv.findNode_sound h).2]; exact hu
    | none =>
      rcases List.suffix_cons_iff.mp hu with heq | hsuf
      · rw [heq] at hx
        rw [hx] at h
        cases h
      · exact ih u x hsuf hx

theorem suffNode_full {t : Trie} {w : List Char} {x : Nat}
    (h : findNode t w = some x) : suffNode t w = x := by
  cases w with
  | nil => exact Option.some.inj h
  | cons c cs => rw [suffNode, h]

theorem TrieInv.suffNode_compress {t : Trie} {str : Nat → List Char}
    (inv : TrieInv t str) :
    ∀ (w : List Char) (c : Char),
      suffNode t (w ++ [c]) = suffNode t (str (suffNode t w) ++ [c]) := by
  intro w
  induction w with
  | nil => intro c; rw [suffNode, inv.str_root]
  | cons c0 cs ih =>
    intro c
    cases h : findNode t (c0 :: cs) with
    | some u =>
      rw [suffNode, h, (inv.findNode_sound h).2]
    | none =>
      have hnone : findNode t ((c0 :: cs) ++ [c]) = none := by
        cases hy : findNode t ((c0 :: cs) ++ [c]) with
        | none => rfl
        | some y =>
          obtain ⟨m, hm⟩ := findNode_prefix_closed hy
          rw [hm] at h
          cases h
      rw [List.cons_append] at hnone
      rw [List.cons_append, suffNode, hnone, suffNode, h, ih c]

/-! ### Shape preservation

Linking only rewrites failure fields, so every function that reads only
children or outputs is unchanged. -/

/-- Two tables of the same length whose states agree on children and
outputs. -/
def SameShape (T t : Trie) : Prop :=
  T.length = t.length ∧
    ∀ v, (getNode T v).children = (getNode t v).children ∧
      (getNode T v).output = (getNode t v).output

theorem sameShape_refl (t : Trie) : SameShape t t := ⟨rfl, fun _ => ⟨rfl, rfl⟩⟩

theorem sameShape_trans {T2 T1 t : Trie} (h1 : SameShape T2 T1)
    (h2 : SameShape T1 t) : SameShape T2 t :=
  ⟨h1.1.trans h2.1, fun v => ⟨(h1.2 v).1.trans (h2.2 v).1, (h1.2 v).2.trans (h2.2 v).2⟩⟩

theorem SameShape.findChild_eq {T t : Trie} (h : SameShape T t) (v : Nat) (c : Char) :
    findChild T v c = findChild t v c := by
  rw [findChild, findChild, (h.2 v).1]

theorem SameShape.findNodeFrom_eq {T t : Trie} (h : SameShape T t) :
    ∀ (w : List Char) (cur : Nat), findNodeFrom T cur w = findNodeFrom t cur w := by
  intro w
  induction w with
  | nil => intro cur; rfl
  | cons c cs ih =>
    intro cur
    rw [findNodeFrom, findNodeFrom, h.findChild_eq cur c]
    cases findChild t cur c with
    | none => rfl
    | some nxt => exact ih nxt

theorem SameShape.findNode_eq {T t : Trie} (h : SameShape T t) (w : List Char) :
    findNode T w = findNode t w := h.findNodeFrom_eq w 0

theorem SameShape.suffNode_eq {T t : Trie} (h : SameShape T t) :
    ∀ w, suffNode T w = suffNode t w := by
  intro w
  induction w with
  | nil => rfl
  | cons c cs ih =>
    rw [suffNode, suffNode, h.findNode_eq]
    cases findNode t (c :: cs) with
    | none => exact ih
    | some u => rfl

theorem TrieInv.of_sameShape {T t : Trie} {str : Nat → List Char}
    (inv : TrieInv t str) (h : SameShape T t) : TrieInv T str where
  ne := by
    intro hT
    have h0 : 0 < T.length := by rw [h.1]; exact inv.root_lt
    rw [hT] at h0
    exact absurd h0 (by simp)
  str_root := inv.str_root
  edge := fun v c u hv hm => by
    rw [h.1] at hv
    rw [(h.2 v).1] at hm
    obtain ⟨h1, h2, h3⟩ := inv.edge v c u hv hm
    exact ⟨h1, by rw [h.1]; exact h2, h3⟩
  keys := fun v => by rw [(h.2 v).1]; exact inv.keys v
  inj := fun u v hu hv he => inv.inj u v (h.1 ▸ hu) (h.1 ▸ hv) he
  reach := fun v hv => by
    rw [h.findNode_eq]
    exact inv.reach v (h.1 ▸ hv)

/-! ### Depth is bounded by the number of states -/

theorem TrieInv.depth_lt {t : Trie} {str : Nat → List Char}
    (inv : TrieInv t str) {v : Nat} (hv : v < t.length) :
    (str v).length < t.length := by
  have hexists : ∀ k : Fin ((str v).length + 1),
      ∃ m, findNode t ((str v).take k.1) = some m := by
    intro k
    have hsplit : (str v).take k.1 ++ (str v).drop k.1 = str v :=
      List.take_append_drop _ _
    exact findNode_prefix_closed (by rw [hsplit]; exact inv.reach v hv)
  choose f hf using hexists
  have hinj : Function.Injective fun k : Fin ((str v).length + 1) =>
      (⟨f k, (inv.findNode_sound (hf k)).1⟩ : Fin t.length) := by
    intro k1 k2 he
    have he2 : f k1 = f k2 := congrArg Fin.val he
    have hs1 := (inv.findNode_sound (hf k1)).2
    have hs2 := (inv.findNode_sound (hf k2)).2
    rw [he2, hs2] at hs1
    have hlen := congrArg List.length hs1
    simp only [List.length_take] at hlen
    exact Fin.ext (by omega)
  have := Fintype.card_le_of_injective _ hinj
  simp only [Fintype.card_fin] at this
  omega

/-! ### Canonical failure links and the goto characterization -/

/-- A failure link is canonical when it points to the state of the longest
proper suffix of the state string that is still a path of the trie. -/
def canonical (T : Trie) (str : Nat → List Char) (v : Nat) : Prop :=
  (getNode T v).failure = suffNode T (str v).tail

theorem TrieInv.str_ne_nil {t : Trie} {str : Nat → List Char}
    (inv : TrieInv t str) {v : Nat} (hv : v < t.length) (h0 : v ≠ 0) :
    str v ≠ [] := by
  intro he
  exact h0 (inv.inj v 0 hv inv.root_lt (by rw [he, inv.str_root]))

theorem climb_succ {T : Trie} {c : Char} {m f : Nat} :
    climb T c (m + 1) f =
      if f ≠ 0 ∧ (findChild T f c).isNone then climb T c m (getNode T f).failure
      else f := rfl

/-- With canonical failure links on all states at depth at most D, the climb
plus transition of the matcher lands on the state of the longest suffix of
(str f ++ [c]) that is a path of the trie. -/
theorem goto_canonical_aux {T : Trie} {str : Nat → List Char}
    (inv : TrieInv T str) {D : Nat}
    (hcan : ∀ u, u < T.length → u ≠ 0 → (str u).length ≤ D → canonical T str u) :
    ∀ (k f fuel : Nat) (c : Char), f < T.length → (str f).length ≤ D →
      (str f).length ≤ k → k < fuel →
      goto T fuel f c = suffNode T (str f ++ [c]) := by
  intro k
  induction k with
  | zero =>
    intro f fuel c hf _ hk hfuel
    have hf0 : f = 0 := by
      have : str f = [] := List.length_eq_zero.mp (by omega)
      exact inv.inj f 0 hf inv.root_lt (by rw [this, inv.str_root])
    subst hf0
    obtain ⟨m, rfl⟩ : ∃ m, fuel = m + 1 := ⟨fuel - 1, by omega⟩
    have hclimb : climb T c (m + 1) 0 = 0 := by
      rw [climb_succ, if_neg]
      simp
    rw [goto, hclimb, inv.str_root, List.nil_append]
    have hfn : findNode T [c] = findNodeFrom T 0 [c] := rfl
    cases hch : findChild T 0 c with
    | none =>
      have : findNode T [c] = none := by
        rw [hfn, findNodeFrom, hch]
      rw [suffNode, this, suffNode]
    | some u =>
      have : findNode T [c] = some u := by
        rw [hfn, findNodeFrom, hch]
        rfl
      rw [suffNode, this]
  | succ k ih =>
    intro f fuel c hf hD hk hfuel
    by_cases hf0 : f = 0
    · subst hf0
      exact ih 0 fuel c hf hD (by rw [inv.str_root]; exact Nat.zero_le k) (by omega)
    obtain ⟨m, rfl⟩ : ∃ m, fuel = m + 1 := ⟨fuel - 1, by omega⟩
    cases hch : findChild T f c with
    | some u =>
      have hclimb : climb T c (m + 1) f = f := by
        rw [climb_succ, if_neg]
        rw [hch]
        simp
      have hfn : findNode T (str f ++ [c]) = some u := by
        rw [findNode_append, inv.reach f hf, Option.some_bind, findNodeFrom, hch]
        rfl
      rw [goto, hclimb, hch, suffNode_full hfn]
    | none =>
      have hstep : climb T c (m + 1) f = climb T c m (getNode T f).failure := by
        rw [climb_succ, if_pos]
        rw [hch]
        exact ⟨hf0, rfl⟩
      have hcanf : (getNode T f).failure = suffNode T (str f).tail :=
        hcan f hf hf0 hD
      set f1 := suffNode T (str f).tail with hf1
      have hne : str f ≠ [] := inv.str_ne_nil hf hf0
      have hlenf : 1 ≤ (str f).length := by
        cases he : str f with
        | nil => exact absurd he hne
        | cons a l => simp
      have hf1lt : f1 < T.length := inv.suffNode_lt _
      have hf1len : (str f1).length ≤ (str f).length - 1 := by
        have := (inv.str_suffNode_suffix (str f).tail).length_le
        simp only [List.length_tail] at this
        exact this
      have hgoto1 : goto T (m + 1) f c = goto T m f1 c := by
        rw [goto, goto, hstep, hcanf]
      rw [hgoto1, ih f1 m c hf1lt (by omega) (by omega) (by omega)]
      have hnfn : findNode T (str f ++ [c]) = none := by
        rw [findNode_append, inv.reach f hf, Option.some_bind, findNodeFrom, hch]
      obtain ⟨a, l, hal⟩ : ∃ a l, str f = a :: l := by
        cases he : str f with
        | nil => exact absurd he hne
        | cons a l => exact ⟨a, l, rfl⟩
      have h1 : suffNode T (str f ++ [c]) = suffNode T ((str f).tail ++ [c]) := by
        rw [hal] at hnfn ⊢
        rw [List.cons_append] at hnfn
        rw [List.cons_append, suffNode, hnfn]
        rfl
      rw [h1, inv.suffNode_compress (str f).tail c]

/-! ### The match-collection walk

Walking the failure chain from the state of the longest trie suffix of the
consumed prefix w collects exactly the range-filtered weights of the genes
that are nonempty suffixes of w. -/

theorem collectGo_succ {T : Trie} {lo hi m node : Nat} :
    collectGo T lo hi (m + 1) node =
      if node = 0 then 0
      else ((getNode T node).output.map fun p =>
              if lo ≤ p.1 ∧ p.1 ≤ hi then p.2 else 0).sum
           + collectGo T lo hi m (getNode T node).failure := rfl

theorem collectGo_canonical {T : Trie} {str : Nat → List Char}
    (inv : TrieInv T str)
    (hcan : ∀ u, u < T.length → u ≠ 0 → canonical T str u)
    (genes : List (List Char)) (health : List Int) (lo hi : Nat)
    (hout : ∀ v, v < T.length → v ≠ 0 →
      ((getNode T v).output.map fun p =>
          if lo ≤ p.1 ∧ p.1 ≤ hi then p.2 else 0).sum
        = ∑ j in Finset.range genes.length,
            if genes.getD j [] = str v ∧ lo ≤ j ∧ j ≤ hi
            then health.getD j 0 else 0)
    (hpres : ∀ j, j < genes.length → genes.getD j [] ≠ [] →
      ∃ x, findNode T (genes.getD j []) = some x) :
    ∀ (k : Nat) (w : List Char) (fuel : Nat),
      (str (suffNode T w)).length ≤ k → (str (suffNode T w)).length < fuel →
      collectGo T lo hi fuel (suffNode T w)
        = ∑ j in Finset.range genes.length,
            if genes.getD j [] ≠ [] ∧ genes.getD j [] <:+ w ∧ lo ≤ j ∧ j ≤ hi
            then health.getD j 0 else 0 := by
  intro k
  induction k with
  | zero =>
    intro w fuel hk hfuel
    have hstr : str (suffNode T w) = [] := List.length_eq_zero.mp (by omega)
    have hv0 : suffNode T w = 0 :=
      inv.inj _ 0 (inv.suffNode_lt w) inv.root_lt (by rw [hstr, inv.str_root])
    obtain ⟨m, rfl⟩ : ∃ m, fuel = m + 1 := ⟨fuel - 1, by omega⟩
    rw [hv0, collectGo_succ, if_pos rfl]
    refine (Finset.sum_eq_zero ?_).symm
    intro j hj
    rw [if_neg]
    rintro ⟨hne, hsuf, -⟩
    obtain ⟨x, hx⟩ := hpres j (Finset.mem_range.mp hj) hne
    have := inv.suffNode_longest w _ x hsuf hx
    rw [hv0, inv.str_root] at this
    exact hne (List.suffix_nil.mp this)
  | succ k ih =>
    intro w fuel hk hfuel
    by_cases hv0 : suffNode T w = 0
    · obtain ⟨m, rfl⟩ : ∃ m, fuel = m + 1 := ⟨fuel - 1, by omega⟩
      rw [hv0, collectGo_succ, if_pos rfl]
      refine (Finset.sum_eq_zero ?_).symm
      intro j hj
      rw [if_neg]
      rintro ⟨hne, hsuf, -⟩
      obtain ⟨x, hx⟩ := hpres j (Finset.mem_range.mp hj) hne
      have := inv.suffNode_longest w _ x hsuf hx
      rw [hv0, inv.str_root] at this
      exact hne (List.suffix_nil.mp this)
    · set v := suffNode T w with hvdef
      have hvlt : v < T.length := inv.suffNode_lt w
      have hvne : str v ≠ [] := inv.str_ne_nil hvlt hv0
      have hvlen : 1 ≤ (str v).length := by
        cases he : str v with
        | nil => exact absurd he hvne
        | cons a l => simp
      obtain ⟨m, rfl⟩ : ∃ m, fuel = m + 1 := ⟨fuel - 1, by omega⟩
      rw [collectGo_succ, if_neg hv0, hout v hvlt hv0, hcan v hvlt hv0]
      set w2 := (str v).tail with hw2
      have hw2len : w2.length = (str v).length - 1 := by
        rw [hw2, List.length_tail]
      have hsub : (str (suffNode T w2)).length ≤ w2.length :=
        (inv.str_suffNode_suffix w2).length_le
      rw [ih w2 m (by omega) (by omega)]
      rw [← Finset.sum_add_distrib]
      refine Finset.sum_congr rfl ?_
      intro j hj
      have hjlt := Finset.mem_range.mp hj
      by_cases hr : lo ≤ j ∧ j ≤ hi
      · by_cases h1 : genes.getD j [] = str v
        · have hA : (if genes.getD j [] = str v ∧ lo ≤ j ∧ j ≤ hi
              then health.getD j 0 else 0) = health.getD j 0 :=
            if_pos ⟨h1, hr⟩
          have hB : (if genes.getD j [] ≠ [] ∧ genes.getD j [] <:+ w2 ∧ lo ≤ j ∧ j ≤ hi
              then health.getD j 0 else 0) = 0 := by
            rw [if_neg]
            rintro ⟨-, hsuf, -⟩
            have := hsuf.length_le
            rw [h1] at this
            omega
          have hL : (if genes.getD j [] ≠ [] ∧ genes.getD j [] <:+ w ∧ lo ≤ j ∧ j ≤ hi
              then health.getD j 0 else 0) = health.getD j 0 := by
            rw [if_pos]
            exact ⟨by rw [h1]; exact hvne, by rw [h1]; exact inv.str_suffNode_suffix w, hr⟩
          rw [hA, hB, hL]
          omega
        · have hA : (if genes.getD j [] = str v ∧ lo ≤ j ∧ j ≤ hi
              then health.getD j 0 else 0) = 0 := by
            rw [if_neg]
            rintro ⟨he, -⟩
            exact h1 he
          rw [hA, zero_add]
          by_cases hLc : genes.getD j [] ≠ [] ∧ genes.getD j [] <:+ w
          · obtain ⟨x, hx⟩ := hpres j hjlt hLc.1
            have hsv : genes.getD j [] <:+ str v := inv.suffNode_longest w _ x hLc.2 hx
            have hw2s : genes.getD j [] <:+ w2 := suffix_tail_of_ne hsv h1
            rw [if_pos ⟨hLc.1, hw2s, hr⟩, if_pos ⟨hLc.1, hLc.2, hr⟩]
          · have hBn : ¬(genes.getD j [] ≠ [] ∧ genes.getD j [] <:+ w2 ∧
                lo ≤ j ∧ j ≤ hi) := by
              rintro ⟨hne, hsuf, -⟩
              exact hLc ⟨hne, hsuf.trans ((List.tail_suffix (str v)).trans
                (inv.str_suffNode_suffix w))⟩
            have hLn : ¬(genes.getD j [] ≠ [] ∧ genes.getD j [] <:+ w ∧
                lo ≤ j ∧ j ≤ hi) := by
              rintro ⟨hne, hsuf, -⟩
              exact hLc ⟨hne, hsuf⟩
            rw [if_neg hBn, if_neg hLn]
      · rw [if_neg (fun h => hr h.2), if_neg (fun h => hr h.2.2),
          if_neg (fun h => hr h.2.2)]
        omega

/-! ### The text loop of the matcher -/

theorem searchGo_canonical {T : Trie} {str : Nat → List Char}
    (inv : TrieInv T str)
    (hcan : ∀ u, u < T.length → u ≠ 0 → canonical T str u)
    (genes : List (List Char)) (health : List Int) (lo hi : Nat)
    (hout : ∀ v, v < T.length → v ≠ 0 →
      ((getNode T v).output.map fun p =>
          if lo ≤ p.1 ∧ p.1 ≤ hi then p.2 else 0).sum
        = ∑ j in Finset.range genes.length,
            if genes.getD j [] = str v ∧ lo ≤ j ∧ j ≤ hi
            then health.getD j 0 else 0)
    (hpres : ∀ j, j < genes.length → genes.getD j [] ≠ [] →
      ∃ x, findNode T (genes.getD j []) = some x) :
    ∀ (cs pre : List Char) (acc : Int),
      searchGo T lo hi (suffNode T pre) acc cs
        = acc + ∑ i in Finset.range cs.length,
            ∑ j in Finset.range genes.length,
              if genes.getD j [] ≠ [] ∧ genes.getD j [] <:+ (pre ++ cs.take (i + 1))
                ∧ lo ≤ j ∧ j ≤ hi
              then health.getD j 0 else 0 := by
  intro cs
  induction cs with
  | nil => intro pre acc; simp [searchGo]
  | cons c cs2 ih =>
    intro pre acc
    have hdlt : (str (suffNode T pre)).length < T.length :=
      inv.depth_lt (inv.suffNode_lt pre)
    have hgoto : goto T T.length (suffNode T pre) c = suffNode T (pre ++ [c]) := by
      rw [goto_canonical_aux inv
        (fun u hu h0 _ => hcan u hu h0)
        (str (suffNode T pre)).length (suffNode T pre) T.length c
        (inv.suffNode_lt pre) le_rfl le_rfl hdlt]
      rw [inv.suffNode_compress pre c]
    have hcol : collectGo T lo hi T.length (suffNode T (pre ++ [c]))
        = ∑ j in Finset.range genes.length,
            if genes.getD j [] ≠ [] ∧ genes.getD j [] <:+ (pre ++ [c])
              ∧ lo ≤ j ∧ j ≤ hi
            then health.getD j 0 else 0 :=
      collectGo_canonical inv hcan genes health lo hi hout hpres
        (str (suffNode T (pre ++ [c]))).length (pre ++ [c]) T.length le_rfl
        (inv.depth_lt (inv.suffNode_lt _))
    rw [searchGo, hgoto, hcol, ih (pre ++ [c])]
    rw [List.length_cons, Finset.sum_range_succ']
    have htake0 : pre ++ (c :: cs2).take (0 + 1) = pre ++ [c] := by simp
    have htake : ∀ i, (pre ++ [c]) ++ cs2.take (i + 1)
        = pre ++ (c :: cs2).take (i + 1 + 1) := by
      intro i
      rw [List.take_succ_cons, List.append_assoc]
      rfl
    rw [htake0]
    have hsum : ∀ i ∈ Finset.range cs2.length,
        (∑ j in Finset.range genes.length,
          if genes.getD j [] ≠ [] ∧ genes.getD j [] <:+ ((pre ++ [c]) ++ cs2.take (i + 1))
            ∧ lo ≤ j ∧ j ≤ hi
          then health.getD j 0 else 0)
        = ∑ j in Finset.range genes.length,
            if genes.getD j [] ≠ [] ∧ genes.getD j [] <:+ (pre ++ (c :: cs2).take (i + 1 + 1))
              ∧ lo ≤ j ∧ j ≤ hi
            then health.getD j 0 else 0 := by
      intro i _
      rw [htake i]
    rw [Finset.sum_congr rfl hsum]
    ring

/-- Full characterization of search on a trie with canonical failure links:
the total is, over every end position, the range-filtered weight of every
nonempty gene that is a suffix of the consumed prefix. -/
theorem search_canonical {T : Trie} {str : Nat → List Char}
    (inv : TrieInv T str)
    (hcan : ∀ u, u < T.length → u ≠ 0 → canonical T str u)
    (genes : List (List Char)) (health : List Int) (lo hi : Nat)
    (hout : ∀ v, v < T.length → v ≠ 0 →
      ((getNode T v).output.map fun p =>
          if lo ≤ p.1 ∧ p.1 ≤ hi then p.2 else 0).sum
        = ∑ j in Finset.range genes.length,
            if genes.getD j [] = str v ∧ lo ≤ j ∧ j ≤ hi
            then health.getD j 0 else 0)
    (hpres : ∀ j, j < genes.length → genes.getD j [] ≠ [] →
      ∃ x, findNode T (genes.getD j []) = some x)
    (text : List Char) :
    search T text lo hi
      = ∑ i in Finset.range text.length,
          ∑ j in Finset.range genes.length,
            if genes.getD j [] ≠ [] ∧ genes.getD j [] <:+ text.take (i + 1)
              ∧ lo ≤ j ∧ j ≤ hi
            then health.getD j 0 else 0 := by
  have h0 : (0 : Nat) = suffNode T [] := rfl
  rw [search, h0, searchGo_canonical inv hcan genes health lo hi hout hpres text [] 0,
    zero_add]
  refine Finset.sum_congr rfl fun i _ => Finset.sum_congr rfl fun j _ => ?_
  rw [List.nil_append]

/-! ### Reindexing matches from end positions to start positions -/

theorem count_reindex {g : List Char} (hg : g ≠ []) (text : List Char) (wj : Int) :
    (∑ i in Finset.range text.length, if g <:+ text.take (i + 1) then wj else 0)
      = ∑ i in Finset.range text.length, if g <+: text.drop i then wj else 0 := by
  have hg1 : 1 ≤ g.length := by
    cases he : g with
    | nil => exact absurd he hg
    | cons a l => simp
  rw [← Finset.sum_filter, ← Finset.sum_filter, Finset.sum_const, Finset.sum_const]
  congr 1
  refine Finset.card_bij' (fun i _ => i + 1 - g.length) (fun i _ => i + g.length - 1)
    ?_ ?_ ?_ ?_
  · intro i hi
    dsimp only
    rw [Finset.mem_filter, Finset.mem_range] at hi
    obtain ⟨hilt, hsuf⟩ := hi
    obtain ⟨p, hp⟩ := hsuf
    have hplen : p.length + g.length = i + 1 := by
      have := congrArg List.length hp
      simp only [List.length_append, List.length_take] at this
      omega
    rw [Finset.mem_filter, Finset.mem_range]
    constructor
    · omega
    · have hple : p.length = i + 1 - g.length := by omega
      refine ⟨text.drop (i + 1), ?_⟩
      have hsplit : text.take (i + 1) ++ text.drop (i + 1) = text :=
        List.take_append_drop _ _
      calc g ++ text.drop (i + 1)
          = (p ++ g).drop p.length ++ text.drop (i + 1) := by rw [List.drop_left]
        _ = (text.take (i + 1)).drop p.length ++ text.drop (i + 1) := by rw [hp]
        _ = (text.take (i + 1) ++ text.drop (i + 1)).drop p.length := by
            rw [List.drop_append_of_le_length]
            rw [List.length_take]
            omega
        _ = text.drop (i + 1 - g.length) := by rw [hsplit, hple]
  · intro i hi
    dsimp only
    rw [Finset.mem_filter, Finset.mem_range] at hi
    obtain ⟨hilt, hpre⟩ := hi
    obtain ⟨s, hs⟩ := hpre
    have hlen : g.length + s.length = text.length - i := by
      have := congrArg List.length hs
      simp only [List.length_append, List.length_drop] at this
      omega
    rw [Finset.mem_filter, Finset.mem_range]
    constructor
    · omega
    · refine ⟨text.take i, ?_⟩
      have h1 : i + g.length - 1 + 1 = i + g.length := by omega
      calc text.take i ++ g
          = text.take i ++ (g ++ s).take g.length := by rw [List.take_left]
        _ = text.take i ++ (text.drop i).take g.length := by rw [hs]
        _ = text.take (i + g.length) := by rw [← List.take_add]
        _ = text.take (i + g.length - 1 + 1) := by rw [h1]
  · intro i hi
    dsimp only
    rw [Finset.mem_filter, Finset.mem_range] at hi
    obtain ⟨-, hsuf⟩ := hi
    have := hsuf.length_le
    rw [List.length_take] at this
    omega
  · intro i _
    dsimp only
    omega

/-! ### Construction: extension and congruence machinery -/

theorem findNodeFrom_congr {T t : Trie}
    (hc : ∀ v, (getNode T v).children = (getNode t v).children) :
    ∀ (w : List Char) (cur : Nat), findNodeFrom T cur w = findNodeFrom t cur w := by
  intro w
  induction w with
  | nil => intro cur; rfl
  | cons c cs ih =>
    intro cur
    rw [findNodeFrom, findNodeFrom, findChild, findChild, hc cur]
    cases findEntry (getNode t cur).children c with
    | none => rfl
    | some nxt => exact ih nxt

theorem TrieInv.of_children {T t : Trie} {str : Nat → List Char}
    (inv : TrieInv t str) (hlen : T.length = t.length)
    (hc : ∀ v, (getNode T v).children = (getNode t v).children) : TrieInv T str where
  ne := by
    intro hT
    have h0 : 0 < T.length := by rw [hlen]; exact inv.root_lt
    rw [hT] at h0
    exact absurd h0 (by simp)
  str_root := inv.str_root
  edge := fun v c u hv hm => by
    rw [hlen] at hv
    rw [hc v] at hm
    obtain ⟨h1, h2, h3⟩ := inv.edge v c u hv hm
    exact ⟨h1, by rw [hlen]; exact h2, h3⟩
  keys := fun v => by rw [hc v]; exact inv.keys v
  inj := fun u v hu hv he => inv.inj u v (hlen ▸ hu) (hlen ▸ hv) he
  reach := fun v hv => by
    rw [findNode, findNodeFrom_congr hc]
    exact inv.reach v (hlen ▸ hv)

/-- One insertion extends the table: old states keep their outputs and
failure links, and the transitions they already had persist. -/
structure Extends (t2 t : Trie) : Prop where
  le : t.length ≤ t2.length
  output_eq : ∀ v, v < t.length → (getNode t2 v).output = (getNode t v).output
  failure_eq : ∀ v, v < t.length → (getNode t2 v).failure = (getNode t v).failure
  child_pres : ∀ v c u, v < t.length →
    findEntry (getNode t v).children c = some u →
    findEntry (getNode t2 v).children c = some u

theorem extends_refl (t : Trie) : Extends t t :=
  ⟨le_refl _, fun _ _ => Eq.refl _, fun _ _ => Eq.refl _, fun _ _ _ _ h => h⟩

theorem extends_trans {t3 t2 t : Trie} (h2 : Extends t3 t2) (h1 : Extends t2 t) :
    Extends t3 t where
  le := h1.le.trans h2.le
  output_eq := fun v hv =>
    (h2.output_eq v (lt_of_lt_of_le hv h1.le)).trans (h1.output_eq v hv)
  failure_eq := fun v hv =>
    (h2.failure_eq v (lt_of_lt_of_le hv h1.le)).trans (h1.failure_eq v hv)
  child_pres := fun v c u hv h =>
    h2.child_pres v c u (lt_of_lt_of_le hv h1.le) (h1.child_pres v c u hv h)

theorem Extends.fnf_pres {t2 t : Trie} {str : Nat → List Char}
    (ext : Extends t2 t) (inv : TrieInv t str) :
    ∀ (w : List Char) (cur x : Nat), cur < t.length →
      findNodeFrom t cur w = some x → findNodeFrom t2 cur w = some x := by
  intro w
  induction w with
  | nil => intro cur x _ h; exact h
  | cons c cs ih =>
    intro cur x hcur h
    rw [findNodeFrom] at h
    cases hfc : findChild t cur c with
    | none => rw [hfc] at h; cases h
    | some nxt =>
      rw [hfc] at h
      have hlt : nxt < t.length := (inv.edge cur c nxt hcur (inv.findChild_iff.mp hfc)).2.1
      rw [findNodeFrom, findChild, ext.child_pres cur c nxt hcur hfc]
      exact ih nxt x hlt h

theorem Extends.findNode_pres {t2 t : Trie} {str : Nat → List Char}
    (ext : Extends t2 t) (inv : TrieInv t str) {w : List Char} {x : Nat}
    (h : findNode t w = some x) : findNode t2 w = some x :=
  ext.fnf_pres inv w 0 x inv.root_lt h

/-- All failure links vanish before linking. -/
def FailZero (t : Trie) : Prop := ∀ v, (getNode t v).failure = 0

/-- Everything the insertion walk guarantees about the resulting table t2
relative to the starting table t. -/
def InsOk (t : Trie) (str : Nat → List Char) (t2 : Trie)
    (str2 : Nat → List Char) : Prop :=
  TrieInv t2 str2 ∧ FailZero t2 ∧ Extends t2 t ∧
  (∀ v, v < t.length → str2 v = str v) ∧
  (∀ v, t.length ≤ v → v < t2.length → (getNode t2 v).output = []) ∧
  (∀ v, t.length ≤ v → v < t2.length → findNode t (str2 v) = none)

theorem getNode_concat_length {t : Trie} {x : TrieNode} :
    getNode (t ++ [x]) t.length = x := by
  rw [getNode_eq_get?, List.getElem?_concat_length]
  rfl

/-- Allocating one fresh node and adding one fresh edge preserves the
invariant, with the new state spelling str cur followed by the new symbol. -/
theorem addPattern_step {t : Trie} {str : Nat → List Char} {cur : Nat} {c : Char}
    (inv : TrieInv t str) (hf0 : FailZero t)
    (hcur : cur < t.length) (hch : findChild t cur c = none) :
    InsOk t str
      ((t ++ [TrieNode.new]).set cur
        { getNode (t ++ [TrieNode.new]) cur with
          children := (getNode (t ++ [TrieNode.new]) cur).children ++ [(c, t.length)] })
      (fun v => if v = t.length then str cur ++ [c] else str v) := by
  set t1 := t ++ [TrieNode.new] with ht1
  set nd := { getNode t1 cur with
    children := (getNode t1 cur).children ++ [(c, t.length)] } with hnd
  set t2 := t1.set cur nd with ht2
  set str1 := fun v => if v = t.length then str cur ++ [c] else str v with hstr1
  have hlen1 : t1.length = t.length + 1 := by rw [ht1, List.length_append]; rfl
  have hlen2 : t2.length = t.length + 1 := by rw [ht2, List.length_set, hlen1]
  have hcur1 : getNode t1 cur = getNode t cur := getNode_append_left hcur
  have hcurne : cur ≠ t.length := by omega
  have hnode_cur : getNode t2 cur =
      { getNode t cur with children := (getNode t cur).children ++ [(c, t.length)] } := by
    rw [ht2, getNode_set_same (by omega), hnd, hcur1]
  have hnode_nn : getNode t2 t.length = TrieNode.new := by
    rw [ht2, getNode_set_other (Ne.symm hcurne), ht1, getNode_concat_length]
  have hnode_other : ∀ v, v ≠ cur → v ≠ t.length → getNode t2 v = getNode t v := by
    intro v hvc hvn
    rw [ht2, getNode_set_other hvc]
    by_cases hvlt : v < t.length
    · exact getNode_append_left hvlt
    · rw [getNode_beyond (by omega), getNode_beyond (by omega)]
  have hch0 : findEntry (getNode t cur).children c = none := hch
  have hfresh : findNode t (str cur ++ [c]) = none := by
    rw [findNode_append, inv.reach cur hcur, Option.some_bind, findNodeFrom, findChild,
      hch0]
  have hstr1_old : ∀ v, v ≠ t.length → str1 v = str v := by
    intro v hv
    rw [hstr1]
    exact if_neg hv
  have hstr1_nn : str1 t.length = str cur ++ [c] := if_pos rfl
  have hroot : (0 : Nat) ≠ t.length := by
    have := inv.root_lt
    omega
  have hext : Extends t2 t := by
    refine ⟨by omega, ?_, ?_, ?_⟩
    · intro v hv
      by_cases hvc : v = cur
      · subst hvc; rw [hnode_cur]
      · rw [hnode_other v hvc (by omega)]
    · intro v hv
      by_cases hvc : v = cur
      · subst hvc; rw [hnode_cur]
      · rw [hnode_other v hvc (by omega)]
    · intro v c2 u hv hfe
      by_cases hvc : v = cur
      · subst hvc
        rw [hnode_cur]
        exact findEntry_append_some hfe
      · rw [hnode_other v hvc (by omega)]
        exact hfe
  have hinv2 : TrieInv t2 str1 := by
    refine ⟨?_, ?_, ?_, ?_, ?_, ?_⟩
    · exact List.length_pos.mp (by omega)
    · rw [hstr1_old 0 hroot, inv.str_root]
    · intro v c2 u hv hm
      by_cases hvc : v = cur
      · subst hvc
        rw [hnode_cur] at hm
        rcases List.mem_append.mp hm with hm | hm
        · obtain ⟨h1, h2, h3⟩ := inv.edge v c2 u hcur hm
          exact ⟨h1, by omega,
            by rw [hstr1_old u (by omega), hstr1_old v hcurne, h3]⟩
        · obtain ⟨hc2, hu⟩ : c2 = c ∧ u = t.length := by
            have hm2 : (c2, u) = (c, t.length) := List.mem_singleton.mp hm
            exact ⟨congrArg Prod.fst hm2, congrArg Prod.snd hm2⟩
          subst hc2; subst hu
          exact ⟨hcur, by omega, by rw [hstr1_nn, hstr1_old v hcurne]⟩
      · by_cases hvn : v = t.length
        · subst hvn
          rw [hnode_nn] at hm
          exact absurd hm (by simp [TrieNode.new])
        · rw [hnode_other v hvc hvn] at hm
          have hvlt : v < t.length := by omega
          obtain ⟨h1, h2, h3⟩ := inv.edge v c2 u hvlt hm
          exact ⟨h1, by omega,
            by rw [hstr1_old u (by omega), hstr1_old v hvn, h3]⟩
    · intro v
      by_cases hvc : v = cur
      · subst hvc
        rw [hnode_cur]
        simp only [List.map_append]
        rw [List.nodup_append]
        refine ⟨inv.keys v, by simp, ?_⟩
        intro a ha hb
        have hac : a = c := by
          simp only [List.map_cons, List.map_nil, List.mem_singleton] at hb
          exact hb
        subst hac
        obtain ⟨e, he, hfst⟩ := List.mem_map.mp ha
        exact (findEntry_eq_none.mp hch0 e he) hfst
      · by_cases hvn : v = t.length
        · subst hvn; rw [hnode_nn]; simp [TrieNode.new]
        · rw [hnode_other v hvc hvn]; exact inv.keys v
    · intro u v hu hv he
      by_cases hun : u = t.length
      · by_cases hvn : v = t.length
        · rw [hun, hvn]
        · rw [hun, hstr1_nn, hstr1_old v hvn] at he
          have := inv.reach v (by omega)
          rw [← he, hfresh] at this
          cases this
      · by_cases hvn : v = t.length
        · rw [hvn, hstr1_nn, hstr1_old u hun] at he
          have := inv.reach u (by omega)
          rw [he, hfresh] at this
          cases this
        · rw [hstr1_old u hun, hstr1_old v hvn] at he
          exact inv.inj u v (by omega) (by omega) he
    · intro v hv
      by_cases hvn : v = t.length
      · subst hvn
        rw [hstr1_nn, findNode, fnf_append, ← findNode,
          hext.findNode_pres inv (inv.reach cur hcur), Option.some_bind,
          findNodeFrom, findChild, hnode_cur]
        have : findEntry ((getNode t cur).children ++ [(c, t.length)]) c
            = some t.length := by
          rw [findEntry_append_none hch0, findEntry, if_pos rfl]
        rw [this]
        rfl
      · rw [hstr1_old v hvn]
        exact hext.findNode_pres inv (inv.reach v (by omega))
  refine ⟨hinv2, ?_, hext, fun v hv => hstr1_old v (by omega), ?_, ?_⟩
  · intro v
    by_cases hvc : v = cur
    · subst hvc; rw [hnode_cur]; exact hf0 v
    · by_cases hvn : v = t.length
      · subst hvn; rw [hnode_nn]; rfl
      · rw [hnode_other v hvc hvn]; exact hf0 v
  · intro v hv1 hv2
    obtain rfl : v = t.length := by omega
    rw [hnode_nn]
    rfl
  · intro v hv1 hv2
    obtain rfl : v = t.length := by omega
    rw [hstr1_nn]
    exact hfresh

theorem insOk_refl {t : Trie} {str : Nat → List Char} (inv : TrieInv t str)
    (hf0 : FailZero t) : InsOk t str t str :=
  ⟨inv, hf0, extends_refl t, fun _ _ => rfl,
    fun _ h1 h2 => absurd (lt_of_le_of_lt h1 h2) (lt_irrefl _),
    fun _ h1 h2 => absurd (lt_of_le_of_lt h1 h2) (lt_irrefl _)⟩

theorem insOk_trans {t3 t2 t : Trie} {str3 str2 str : Nat → List Char}
    (h2 : InsOk t2 str2 t3 str3) (h1 : InsOk t str t2 str2)
    (inv : TrieInv t str) : InsOk t str t3 str3 := by
  obtain ⟨inv3, hf3, ext3, hstr3, hout3, hfr3⟩ := h2
  obtain ⟨inv2, hf2, ext2, hstr2, hout2, hfr2⟩ := h1
  refine ⟨inv3, hf3, extends_trans ext3 ext2, ?_, ?_, ?_⟩
  · intro v hv
    rw [hstr3 v (lt_of_lt_of_le hv ext2.le), hstr2 v hv]
  · intro v hv1 hv2
    by_cases hv3 : v < t2.length
    · rw [ext3.output_eq v hv3]
      exact hout2 v hv1 hv3
    · exact hout3 v (by omega) hv2
  · intro v hv1 hv2
    by_cases hv3 : v < t2.length
    · rw [hstr3 v hv3]
      exact hfr2 v hv1 hv3
    · cases h : findNode t (str3 v) with
      | none => rfl
      | some x =>
        have := ext2.findNode_pres inv h
        rw [hfr3 v (by omega) hv2] at this
        cases this

theorem addPatternGo_spec :
    ∀ (cs : List Char) (t : Trie) (str : Nat → List Char) (cur : Nat),
      TrieInv t str → FailZero t → cur < t.length →
      ∃ str2, InsOk t str (addPatternGo t cur cs).1 str2 ∧
        (addPatternGo t cur cs).2 < (addPatternGo t cur cs).1.length ∧
        str2 (addPatternGo t cur cs).2 = str cur ++ cs := by
  intro cs
  induction cs with
  | nil =>
    intro t str cur inv hf0 hcur
    exact ⟨str, insOk_refl inv hf0, hcur, by simp [addPatternGo]⟩
  | cons c cs2 ih =>
    intro t str cur inv hf0 hcur
    cases hfc : findChild t cur c with
    | some nxt =>
      have hred : addPatternGo t cur (c :: cs2) = addPatternGo t nxt cs2 := by
        rw [addPatternGo, hfc]
      obtain ⟨-, hlt, hstr⟩ := inv.edge cur c nxt hcur (inv.findChild_iff.mp hfc)
      obtain ⟨str2, hok, hlast, hstr2⟩ := ih t str nxt inv hf0 hlt
      refine ⟨str2, by rw [hred]; exact hok, by rw [hred]; exact hlast, ?_⟩
      rw [hred, hstr2, hstr, List.append_assoc]
      rfl
    | none =>
      set t2 := (t ++ [TrieNode.new]).set cur
        { getNode (t ++ [TrieNode.new]) cur with
          children := (getNode (t ++ [TrieNode.new]) cur).children
            ++ [(c, t.length)] } with ht2
      set str1 := fun v => if v = t.length then str cur ++ [c] else str v with hstr1
      have hred : addPatternGo t cur (c :: cs2) = addPatternGo t2 t.length cs2 := by
        rw [addPatternGo, hfc]
      have hstep : InsOk t str t2 str1 := addPattern_step inv hf0 hcur hfc
      have inv2 := hstep.1
      have hf2 := hstep.2.1
      have hlen2 : t.length < t2.length := by
        rw [ht2, List.length_set, List.length_append]
        simp
      obtain ⟨str2, hok, hlast, hstr2⟩ := ih t2 str1 t.length inv2 hf2 hlen2
      refine ⟨str2, by rw [hred]; exact insOk_trans hok hstep inv, by rw [hred]; exact hlast, ?_⟩
      have hs1 : str1 t.length = str cur ++ [c] := if_pos rfl
      rw [hred, hstr2, hs1, List.append_assoc]
      rfl

/-! ### Output characterization through the build -/

/-- The outputs of every state are exactly the already-inserted
(index, weight) entries whose gene spells that state, in insertion order. -/
def OutSpec (health : List Int) (t : Trie) (str : Nat → List Char)
    (done : List (Nat × List Char)) : Prop :=
  ∀ v, v < t.length →
    (getNode t v).output
      = (done.filter fun q => decide (q.2 = str v)).map
          fun q => (q.1, health.getD q.1 0)

/-- Every inserted gene is a path of the trie. -/
def PatsIn (t : Trie) (done : List (Nat × List Char)) : Prop :=
  ∀ q ∈ done, ∃ x, findNode t q.2 = some x

theorem add_pattern_spec {t : Trie} {str : Nat → List Char}
    {health : List Int} {done : List (Nat × List Char)}
    (inv : TrieInv t str) (hf0 : FailZero t)
    (hout : OutSpec health t str done) (hpats : PatsIn t done)
    (gi : Nat) (gene : List Char) :
    ∃ str2,
      TrieInv (add_pattern t gene gi (health.getD gi 0)) str2 ∧
      FailZero (add_pattern t gene gi (health.getD gi 0)) ∧
      OutSpec health (add_pattern t gene gi (health.getD gi 0)) str2
        (done ++ [(gi, gene)]) ∧
      PatsIn (add_pattern t gene gi (health.getD gi 0)) (done ++ [(gi, gene)]) := by
  obtain ⟨str2, hok, hlast, hstr2⟩ :=
    addPatternGo_spec gene t str 0 inv hf0 inv.root_lt
  obtain ⟨inv2, hf2, ext2, hstrold, hnew, hfr⟩ := hok
  rw [inv.str_root, List.nil_append] at hstr2
  set tg := (addPatternGo t 0 gene).1 with htg
  set last := (addPatternGo t 0 gene).2 with hlastdef
  set res := add_pattern t gene gi (health.getD gi 0) with hres
  have hresdef : res = tg.set last
      { getNode tg last with
        output := (getNode tg last).output ++ [(gi, health.getD gi 0)] } := rfl
  have hlenr : res.length = tg.length := by rw [hresdef, List.length_set]
  have hchildren : ∀ v, (getNode res v).children = (getNode tg v).children := by
    intro v
    by_cases hv : v = last
    · subst hv
      rw [hresdef, getNode_set_same hlast]
    · rw [hresdef, getNode_set_other hv]
  have hfailr : ∀ v, (getNode res v).failure = (getNode tg v).failure := by
    intro v
    by_cases hv : v = last
    · subst hv
      rw [hresdef, getNode_set_same hlast]
    · rw [hresdef, getNode_set_other hv]
  have hout_last : (getNode res last).output
      = (getNode tg last).output ++ [(gi, health.getD gi 0)] := by
    rw [hresdef, getNode_set_same hlast]
  have hout_other : ∀ v, v ≠ last → (getNode res v).output = (getNode tg v).output := by
    intro v hv
    rw [hresdef, getNode_set_other hv]
  have hinvr : TrieInv res str2 := inv2.of_children hlenr hchildren
  have hfind_eq : ∀ w, findNode res w = findNode tg w := by
    intro w
    rw [findNode, findNodeFrom_congr hchildren]
    rfl
  have hdone_empty : ∀ v, v < tg.length → t.length ≤ v →
      (done.filter fun q => decide (q.2 = str2 v)) = [] := by
    intro v hv hvge
    rw [List.filter_eq_nil_iff]
    intro q hq
    rw [decide_eq_true_eq]
    intro he
    obtain ⟨x, hx⟩ := hpats q hq
    rw [he, hfr v hvge hv] at hx
    cases hx
  refine ⟨str2, hinvr, ?_, ?_, ?_⟩
  · intro v
    rw [hfailr v]
    exact hf2 v
  · intro v hv
    rw [hlenr] at hv
    rw [List.filter_append]
    by_cases hvl : v = last
    · subst hvl
      rw [hout_last]
      have hggg : (List.filter (fun q => decide (q.2 = str2 last)) [(gi, gene)])
          = [(gi, gene)] := by
        rw [List.filter_singleton]
        simp [hstr2]
      rw [hggg, List.map_append]
      by_cases hlt : last < t.length
      · rw [ext2.output_eq last hlt, hout last hlt]
        have hseq : str last = str2 last := (hstrold last hlt).symm
        rw [hseq]
        rfl
      · rw [hnew last (by omega) hv, hdone_empty last hv (by omega)]
        rfl
    · rw [hout_other v hvl]
      have hgn : (List.filter (fun q => decide (q.2 = str2 v)) [(gi, gene)]) = [] := by
        rw [List.filter_singleton]
        have hne : ¬((gi, gene).2 = str2 v) := fun he =>
          hvl (inv2.inj v last hv hlast (he.symm.trans hstr2.symm))
        simp [hne]
      rw [hgn, List.append_nil]
      by_cases hlt : v < t.length
      · rw [ext2.output_eq v hlt, hout v hlt, hstrold v hlt]
      · rw [hnew v (by omega) hv, hdone_empty v hv (by omega)]
        rfl
  · intro q hq
    rcases List.mem_append.mp hq with hq | hq
    · obtain ⟨x, hx⟩ := hpats q hq
      exact ⟨x, by rw [hfind_eq]; exact ext2.findNode_pres inv hx⟩
    · obtain rfl : q = (gi, gene) := List.mem_singleton.mp hq
      refine ⟨last, ?_⟩
      rw [hfind_eq]
      have := inv2.reach last hlast
      rw [hstr2] at this
      exact this

/-- The fold of the building loop preserves all construction invariants. -/
theorem buildLoop_spec (health : List Int) :
    ∀ (l done : List (Nat × List Char)) (t : Trie) (str : Nat → List Char),
      TrieInv t str → FailZero t → OutSpec health t str done → PatsIn t done →
      ∃ str2,
        TrieInv (l.foldl (fun tt p => add_pattern tt p.2 p.1 (health.getD p.1 0)) t)
          str2 ∧
        FailZero (l.foldl (fun tt p => add_pattern tt p.2 p.1 (health.getD p.1 0)) t) ∧
        OutSpec health
          (l.foldl (fun tt p => add_pattern tt p.2 p.1 (health.getD p.1 0)) t)
          str2 (done ++ l) ∧
        PatsIn (l.foldl (fun tt p => add_pattern tt p.2 p.1 (health.getD p.1 0)) t)
          (done ++ l) := by
  intro l
  induction l with
  | nil =>
    intro done t str inv hf0 hout hpats
    exact ⟨str, inv, hf0, by rw [List.append_nil]; exact hout,
      by rw [List.append_nil]; exact hpats⟩
  | cons q l2 ih =>
    intro done t str inv hf0 hout hpats
    obtain ⟨str2, inv2, hf2, hout2, hpats2⟩ :=
      add_pattern_spec inv hf0 hout hpats q.1 q.2
    obtain ⟨str3, inv3, hf3, hout3, hpats3⟩ :=
      ih (done ++ [(q.1, q.2)]) (add_pattern t q.2 q.1 (health.getD q.1 0))
        str2 inv2 hf2 hout2 hpats2
    rw [List.append_assoc] at hout3 hpats3
    exact ⟨str3, inv3, hf3, hout3, hpats3⟩

/-- All construction invariants of the finished trie. -/
theorem buildTrie_spec (genes : List (List Char)) (health : List Int) :
    ∃ str,
      TrieInv (buildTrie genes health) str ∧
      FailZero (buildTrie genes health) ∧
      OutSpec health (buildTrie genes health) str genes.enum ∧
      PatsIn (buildTrie genes health) genes.enum := by
  have hinv0 : TrieInv [TrieNode.new] fun _ => ([] : List Char) := by
    refine ⟨by simp, rfl, ?_, ?_, ?_, ?_⟩
    · intro v c u hv hm
      simp only [List.length_singleton] at hv
      obtain rfl : v = 0 := by omega
      exact absurd hm (by simp [getNode, TrieNode.new])
    · intro v
      by_cases hv : v = 0
      · subst hv; simp [getNode, TrieNode.new]
      · rw [getNode_beyond (by simp; omega)]
        simp [TrieNode.new]
    · intro u v hu hv _
      simp only [List.length_singleton] at hu hv
      omega
    · intro v hv
      simp only [List.length_singleton] at hv
      obtain rfl : v = 0 := by omega
      rfl
  have hf00 : FailZero [TrieNode.new] := by
    intro v
    by_cases hv : v = 0
    · subst hv; rfl
    · rw [getNode_beyond (by simp; omega)]
      rfl
  have hout0 : OutSpec health [TrieNode.new] (fun _ => []) [] := by
    intro v hv
    simp only [List.length_singleton] at hv
    obtain rfl : v = 0 := by omega
    rfl
  have hpats0 : PatsIn [TrieNode.new] [] := fun q hq => absurd hq (by simp)
  obtain ⟨str2, h1, h2, h3, h4⟩ :=
    buildLoop_spec health genes.enum [] [TrieNode.new] (fun _ => [])
      hinv0 hf00 hout0 hpats0
  rw [List.nil_append] at h3 h4
  exact ⟨str2, h1, h2, h3, h4⟩

/-! ### Tree-structure consequences used by the breadth-first linker -/

theorem TrieInv.parent_unique {t : Trie} {str : Nat → List Char}
    (inv : TrieInv t str) {v1 v2 u : Nat} {c1 c2 : Char}
    (h1 : v1 < t.length) (h2 : v2 < t.length)
    (m1 : (c1, u) ∈ (getNode t v1).children) (m2 : (c2, u) ∈ (getNode t v2).children) :
    v1 = v2 ∧ c1 = c2 := by
  obtain ⟨-, -, hs1⟩ := inv.edge v1 c1 u h1 m1
  obtain ⟨-, -, hs2⟩ := inv.edge v2 c2 u h2 m2
  have hst : str v1 ++ [c1] = str v2 ++ [c2] := hs1.symm.trans hs2
  have hlen : (str v1).length = (str v2).length := by
    have := congrArg List.length hst
    simp only [List.length_append, List.length_singleton] at this
    omega
  have hv : str v1 = str v2 := by
    have h3 := congrArg (List.take (str v1).length) hst
    rw [List.take_left, hlen, List.take_left] at h3
    exact h3
  have hveq : v1 = v2 := inv.inj v1 v2 h1 h2 hv
  refine ⟨hveq, ?_⟩
  rw [hv] at hst
  have := List.append_cancel_left hst
  exact List.singleton_inj.mp this

theorem TrieInv.parent_exists {t : Trie} {str : Nat → List Char}
    (inv : TrieInv t str) {u : Nat} (hu : u < t.length) (h0 : u ≠ 0) :
    ∃ v c, v < t.length ∧ (c, u) ∈ (getNode t v).children ∧
      (str v).length + 1 = (str u).length := by
  have hne : str u ≠ [] := inv.str_ne_nil hu h0
  rcases List.eq_nil_or_concat (str u) with h | ⟨ys, c, hys⟩
  · exact absurd h hne
  rw [List.concat_eq_append] at hys
  have hreach := inv.reach u hu
  rw [hys, findNode_append] at hreach
  cases hfv : findNode t ys with
  | none => rw [hfv] at hreach; cases hreach
  | some v =>
    rw [hfv, Option.some_bind, findNodeFrom] at hreach
    cases hfc : findChild t v c with
    | none => rw [hfc] at hreach; cases hreach
    | some u2 =>
      rw [hfc] at hreach
      obtain rfl : u2 = u := Option.some.inj hreach
      obtain ⟨hvlt, hvstr⟩ := inv.findNode_sound hfv
      refine ⟨v, c, hvlt, findEntry_mem hfc, ?_⟩
      rw [hvstr, hys]
      simp

theorem TrieInv.children_snd_nodup {t : Trie} {str : Nat → List Char}
    (inv : TrieInv t str) {v : Nat} (hv : v < t.length) :
    (((getNode t v).children).map Prod.snd).Nodup := by
  have hnd : ((getNode t v).children).Nodup := (inv.keys v).of_map Prod.fst
  refine hnd.map_on ?_
  intro e1 he1 e2 he2 hsnd
  obtain ⟨-, -, hs1⟩ := inv.edge v e1.1 e1.2 hv (by rw [Prod.mk.eta]; exact he1)
  obtain ⟨-, -, hs2⟩ := inv.edge v e2.1 e2.2 hv (by rw [Prod.mk.eta]; exact he2)
  rw [hsnd] at hs1
  have hc : e1.1 = e2.1 := by
    have := hs2.symm.trans hs1
    exact (List.singleton_inj.mp (List.append_cancel_left this)).symm
  exact Prod.ext hc hsnd

theorem TrieInv.child_ne_zero {t : Trie} {str : Nat → List Char}
    (inv : TrieInv t str) {v u : Nat} {c : Char} (hv : v < t.length)
    (hm : (c, u) ∈ (getNode t v).children) : u ≠ 0 := by
  obtain ⟨hlt, -, -⟩ := inv.edge v c u hv hm
  omega

theorem setFailure_shape {T : Trie} {v f : Nat} : SameShape (setFailure T v f) T := by
  refine ⟨length_setFailure, ?_⟩
  intro u
  by_cases hu : u = v
  · subst hu
    by_cases hlt : u < T.length
    · rw [getNode_setFailure_same hlt]
      exact ⟨rfl, rfl⟩
    · rw [setFailure, List.set_eq_of_length_le (by omega)]
      exact ⟨rfl, rfl⟩
  · rw [getNode_setFailure_other hu]
    exact ⟨rfl, rfl⟩

/-! ### Linking one dequeued state: the fold over its child entries -/

theorem foldProc_spec {t : Trie} {str : Nat → List Char} {d : Nat} {current : Nat}
    (inv : TrieInv t str)
    (hcur_lt : current < t.length) (hcur0 : current ≠ 0)
    (hcurd : (str current).length = d) :
    ∀ (kids : List (Char × Nat)),
      (∀ e ∈ kids, e ∈ (getNode t current).children) →
      (kids.map Prod.snd).Nodup →
      ∀ (T : Trie), SameShape T t →
      (getNode T current).failure = suffNode t (str current).tail →
      (∀ u, u < t.length → u ≠ 0 → (str u).length ≤ d →
        (getNode T u).failure = suffNode t (str u).tail) →
      SameShape (kids.foldl (processChild current) T) t ∧
      (∀ v, v ∉ kids.map Prod.snd →
        (getNode (kids.foldl (processChild current) T) v).failure
          = (getNode T v).failure) ∧
      (∀ e ∈ kids, (getNode (kids.foldl (processChild current) T) e.2).failure
        = suffNode t (str e.2).tail) := by
  intro kids
  induction kids with
  | nil =>
    intro _ _ T hsh _ _
    exact ⟨hsh, fun _ _ => rfl, fun e he => absurd he (by simp)⟩
  | cons e ks ih =>
    intro hsub hnd T hsh hcan_cur hlow
    have hmem : e ∈ (getNode t current).children := hsub e (by simp)
    have hmem2 : (e.1, e.2) ∈ (getNode t current).children := by
      rw [Prod.mk.eta]; exact hmem
    obtain ⟨hgt, hlt, hstre⟩ := inv.edge current e.1 e.2 hcur_lt hmem2
    have hdep_e : (str e.2).length = d + 1 := by
      rw [hstre]
      simp [hcurd]
    have hce0 : e.2 ≠ 0 := by omega
    have invT : TrieInv T str := inv.of_sameShape hsh
    have hcurne : str current ≠ [] := inv.str_ne_nil hcur_lt hcur0
    have hd1 : 1 ≤ d := by
      rcases he : str current with _ | ⟨a, l⟩
      · exact absurd he hcurne
      · rw [he] at hcurd
        simp at hcurd
        omega
    set f := suffNode t (str current).tail with hf
    have hflt : f < t.length := inv.suffNode_lt _
    have hfdep : (str f).length ≤ d - 1 := by
      have := (inv.str_suffNode_suffix (str current).tail).length_le
      simp only [List.length_tail, hcurd] at this
      exact this
    have hval : goto T T.length (getNode T current).failure e.1
        = suffNode t (str e.2).tail := by
      rw [hcan_cur]
      have hcanT : ∀ u, u < T.length → u ≠ 0 → (str u).length ≤ d - 1 →
          canonical T str u := by
        intro u hu hu0 hud
        rw [canonical, hsh.suffNode_eq]
        exact hlow u (by rw [← hsh.1]; exact hu) hu0 (by omega)
      have := goto_canonical_aux invT hcanT (str f).length f T.length e.1
        (by rw [hsh.1]; exact hflt) hfdep le_rfl
        (by rw [hsh.1]
            have hdc := inv.depth_lt hcur_lt
            rw [hcurd] at hdc
            omega)
      rw [this, hsh.suffNode_eq]
      have htail : (str e.2).tail = (str current).tail ++ [e.1] := by
        rw [hstre]
        rcases he : str current with _ | ⟨a, l⟩
        · exact absurd he hcurne
        · simp
      rw [htail, inv.suffNode_compress (str current).tail e.1]
    set T1 := processChild current T e with hT1
    have hT1def : T1 = setFailure T e.2 (suffNode t (str e.2).tail) := by
      rw [hT1, processChild, hval]
    have hsh1 : SameShape T1 t := by
      rw [hT1def]
      exact sameShape_trans setFailure_shape hsh
    have hfail1_same : (getNode T1 e.2).failure = suffNode t (str e.2).tail := by
      rw [hT1def, getNode_setFailure_same (by rw [hsh.1]; exact hlt)]
    have hfail1_other : ∀ v, v ≠ e.2 →
        (getNode T1 v).failure = (getNode T v).failure := by
      intro v hv
      rw [hT1def, getNode_setFailure_other hv]
    have hcan_cur1 : (getNode T1 current).failure = suffNode t (str current).tail := by
      rw [hfail1_other current (by omega), hcan_cur]
    have hlow1 : ∀ u, u < t.length → u ≠ 0 → (str u).length ≤ d →
        (getNode T1 u).failure = suffNode t (str u).tail := by
      intro u hu hu0 hud
      have hne : u ≠ e.2 := by
        intro he2
        rw [he2, hdep_e] at hud
        omega
      rw [hfail1_other u hne]
      exact hlow u hu hu0 hud
    have hnd2 : (ks.map Prod.snd).Nodup := by
      rw [List.map_cons, List.nodup_cons] at hnd
      exact hnd.2
    have hnotin : e.2 ∉ ks.map Prod.snd := by
      rw [List.map_cons, List.nodup_cons] at hnd
      exact hnd.1
    obtain ⟨hshF, hotherF, hcanF⟩ :=
      ih (fun x hx => hsub x (by simp [hx])) hnd2 T1 hsh1 hcan_cur1 hlow1
    refine ⟨hshF, ?_, ?_⟩
    · intro v hv
      rw [List.map_cons] at hv
      have hv1 : v ∉ ks.map Prod.snd := fun h => hv (by simp [h])
      have hv2 : v ≠ e.2 := fun h => hv (by simp [h])
      rw [List.foldl_cons, ← hT1, hotherF v hv1, hfail1_other v hv2]
    · intro e2 he2
      rw [List.foldl_cons, ← hT1]
      rcases List.mem_cons.mp he2 with rfl | he2
      · rw [hotherF e2.2 hnotin]
        exact hfail1_same
      · exact hcanF e2 he2

/-! ### The breadth-first invariant of the linking loop -/

/-- Invariant of the BFS loop of the linker: T is the partially linked
table, A the queued states of the current level d, B the queued states of
level d + 1, done the already dequeued states. -/
structure BfsInv (t : Trie) (str : Nat → List Char) (d : Nat) (T : Trie)
    (A B done : List Nat) : Prop where
  shape : SameShape T t
  root_fail : (getNode T 0).failure = 0
  a_nodes : ∀ a ∈ A, a < t.length ∧ a ≠ 0 ∧ (str a).length = d
  b_nodes : ∀ b ∈ B, b < t.length ∧ b ≠ 0 ∧ (str b).length = d + 1
  low_can : ∀ v, v < t.length → v ≠ 0 → (str v).length ≤ d →
    (getNode T v).failure = suffNode t (str v).tail
  b_can : ∀ b ∈ B, (getNode T b).failure = suffNode t (str b).tail
  cover : ∀ v, v < t.length → (str v).length = d → v ∉ A →
    ∀ c u, (c, u) ∈ (getNode t v).children → u ∈ B
  b_src : ∀ b ∈ B, ∃ v ∈ done, (str v).length = d ∧
    ∃ c, (c, b) ∈ (getNode t v).children
  done_nodes : ∀ x ∈ done, x < t.length ∧ x ≠ 0 ∧ (str x).length ≤ d
  nodup : (done ++ (A ++ B)).Nodup

theorem bfs_all_next_level_in_B {t : Trie} {str : Nat → List Char}
    {d : Nat} {T : Trie} {B done : List Nat}
    (inv : TrieInv t str) (h : BfsInv t str d T [] B done) :
    ∀ u, u < t.length → (str u).length = d + 1 → u ∈ B := by
  intro u hu hud
  have hu0 : u ≠ 0 := by
    intro h0
    rw [h0, inv.str_root] at hud
    simp at hud
  obtain ⟨p, c, hp, hm, hpd⟩ := inv.parent_exists hu hu0
  exact h.cover p hp (by omega) (List.not_mem_nil p) c u hm

theorem BfsInv.flip {t : Trie} {str : Nat → List Char} {d : Nat} {T : Trie}
    {B done : List Nat} (inv : TrieInv t str)
    (h : BfsInv t str d T [] B done) : BfsInv t str (d + 1) T B [] done where
  shape := h.shape
  root_fail := h.root_fail
  a_nodes := h.b_nodes
  b_nodes := fun b hb => absurd hb (List.not_mem_nil b)
  low_can := fun v hv hv0 hvd => by
    rcases Nat.lt_or_ge (str v).length (d + 1) with hlt | hge
    · exact h.low_can v hv hv0 (by omega)
    · exact h.b_can v (bfs_all_next_level_in_B inv h v hv (by omega))
  b_can := fun b hb => absurd hb (List.not_mem_nil b)
  cover := fun v hv hvd hvA c u hm =>
    absurd (bfs_all_next_level_in_B inv h v hv hvd) hvA
  b_src := fun b hb => absurd hb (List.not_mem_nil b)
  done_nodes := fun x hx => by
    obtain ⟨h1, h2, h3⟩ := h.done_nodes x hx
    exact ⟨h1, h2, by omega⟩
  nodup := by
    have := h.nodup
    rw [List.nil_append] at this
    rw [List.append_nil]
    exact this

theorem BfsInv.step {t : Trie} {str : Nat → List Char} {d : Nat} {T : Trie}
    {current : Nat} {A2 B done : List Nat} (inv : TrieInv t str)
    (h : BfsInv t str d T (current :: A2) B done)
    {kids : List (Char × Nat)} (hk : kids.Perm (getNode t current).children) :
    BfsInv t str d (kids.foldl (processChild current) T) A2
      (B ++ kids.map Prod.snd) (done ++ [current]) := by
  obtain ⟨hclt, hc0, hcd⟩ := h.a_nodes current (List.mem_cons_self _ _)
  have hsub : ∀ e ∈ kids, e ∈ (getNode t current).children := fun e he =>
    hk.subset he
  have hknd : (kids.map Prod.snd).Nodup :=
    ((hk.map Prod.snd).symm).nodup (inv.children_snd_nodup hclt)
  obtain ⟨hshF, hotherF, hcanF⟩ :=
    foldProc_spec inv hclt hc0 hcd kids hsub hknd T h.shape
      (h.low_can current hclt hc0 (le_of_eq hcd)) h.low_can
  have htgt : ∀ u ∈ kids.map Prod.snd,
      ∃ c, (c, u) ∈ (getNode t current).children := by
    intro u hu
    obtain ⟨e, he, rfl⟩ := List.mem_map.mp hu
    exact ⟨e.1, by rw [Prod.mk.eta]; exact hsub e he⟩
  have htfacts : ∀ u ∈ kids.map Prod.snd,
      current < u ∧ u < t.length ∧ (str u).length = d + 1 := by
    intro u hu
    obtain ⟨c, hm⟩ := htgt u hu
    obtain ⟨h1, h2, h3⟩ := inv.edge current c u hclt hm
    refine ⟨h1, h2, ?_⟩
    rw [h3]
    simp [hcd]
  have hcur_notin_done : current ∉ done := by
    intro hmem
    have hnd := h.nodup
    rw [List.nodup_append] at hnd
    exact hnd.2.2 hmem (List.mem_append_left B (List.mem_cons_self _ _))
  have hfresh : ∀ u ∈ kids.map Prod.snd, u ∉ done ++ ((current :: A2) ++ B) := by
    intro u hu hmem
    obtain ⟨hgt, hult, hud⟩ := htfacts u hu
    rcases List.mem_append.mp hmem with hmem | hmem
    · have := (h.done_nodes u hmem).2.2
      omega
    · rcases List.mem_append.mp hmem with hmem | hmem
      · rcases List.mem_cons.mp hmem with rfl | hmem
        · omega
        · have := (h.a_nodes u (List.mem_cons_of_mem _ hmem)).2.2
          omega
      · obtain ⟨p, hpdone, hpd, c2, hm2⟩ := h.b_src u hmem
        obtain ⟨c, hm⟩ := htgt u hu
        obtain ⟨hpe, -⟩ := inv.parent_unique (h.done_nodes p hpdone).1 hclt hm2 hm
        rw [hpe] at hpdone
        exact hcur_notin_done hpdone
  refine ⟨hshF, ?_, ?_, ?_, ?_, ?_, ?_, ?_, ?_, ?_⟩
  · have h0not : (0 : Nat) ∉ kids.map Prod.snd := by
      intro h0
      have := (htfacts 0 h0).2.2
      rw [inv.str_root] at this
      simp at this
    rw [hotherF 0 h0not]
    exact h.root_fail
  · exact fun a ha => h.a_nodes a (List.mem_cons_of_mem _ ha)
  · intro b hb
    rcases List.mem_append.mp hb with hb | hb
    · exact h.b_nodes b hb
    · obtain ⟨h1, h2, h3⟩ := htfacts b hb
      exact ⟨h2, by omega, h3⟩
  · intro v hv hv0 hvd
    have hnot : v ∉ kids.map Prod.snd := by
      intro hmem
      have := (htfacts v hmem).2.2
      omega
    rw [hotherF v hnot]
    exact h.low_can v hv hv0 hvd
  · intro b hb
    rcases List.mem_append.mp hb with hb | hb
    · by_cases hbk : b ∈ kids.map Prod.snd
      · obtain ⟨e, he, rfl⟩ := List.mem_map.mp hbk
        exact hcanF e he
      · rw [hotherF b hbk]
        exact h.b_can b hb
    · obtain ⟨e, he, rfl⟩ := List.mem_map.mp hb
      exact hcanF e he
  · intro v hv hvd hvA c u hm
    by_cases hvc : v = current
    · subst hvc
      have : (c, u) ∈ kids := hk.mem_iff.mpr hm
      exact List.mem_append_right B (List.mem_map.mpr ⟨(c, u), this, rfl⟩)
    · have hvout : v ∉ current :: A2 := by
        intro hmem
        rcases List.mem_cons.mp hmem with rfl | hmem
        · exact hvc rfl
        · exact hvA hmem
      exact List.mem_append_left _ (h.cover v hv hvd hvout c u hm)
  · intro b hb
    rcases List.mem_append.mp hb with hb | hb
    · obtain ⟨p, hp, hpd, hc⟩ := h.b_src b hb
      exact ⟨p, List.mem_append_left _ hp, hpd, hc⟩
    · obtain ⟨c, hm⟩ := htgt b hb
      exact ⟨current, List.mem_append_right _ (List.mem_singleton.mpr rfl), hcd,
        c, hm⟩
  · intro x hx
    rcases List.mem_append.mp hx with hx | hx
    · exact h.done_nodes x hx
    · obtain rfl : x = current := List.mem_singleton.mp hx
      exact ⟨hclt, hc0, le_of_eq hcd⟩
  · have hbig : ((done ++ ((current :: A2) ++ B)) ++ kids.map Prod.snd).Nodup := by
      rw [List.nodup_append]
      refine ⟨h.nodup, hknd, ?_⟩
      intro a ha hak
      exact hfresh a hak ha
    have hperm : ((done ++ ((current :: A2) ++ B)) ++ kids.map Prod.snd).Perm
        ((done ++ [current]) ++ (A2 ++ (B ++ kids.map Prod.snd))) := by
      simp only [List.cons_append, List.nil_append, List.append_assoc]
      exact List.Perm.refl _
    exact hperm.nodup hbig

/-- A duplicate-free list of nonzero state ids has at most n - 1 elements. -/
theorem nodup_bound {l : List Nat} {n : Nat} (hnd : l.Nodup)
    (hmem : ∀ x ∈ l, x < n ∧ x ≠ 0) : l.length ≤ n - 1 := by
  have hsub : l.toFinset ⊆ Finset.Ico 1 n := by
    intro x hx
    rw [List.mem_toFinset] at hx
    obtain ⟨h1, h2⟩ := hmem x hx
    rw [Finset.mem_Ico]
    omega
  have := Finset.card_le_card hsub
  rw [List.toFinset_card_of_nodup hnd, Nat.card_Ico] at this
  omega

/-- Conclusion at loop exit: with an empty queue every non-root state has a
canonical failure link. -/
theorem BfsInv.final {t : Trie} {str : Nat → List Char} {d : Nat} {T : Trie}
    {done : List Nat} (inv : TrieInv t str) (h : BfsInv t str d T [] [] done) :
    ∀ v, v < t.length → v ≠ 0 →
      (getNode T v).failure = suffNode t (str v).tail := by
  have hnodeep : ∀ m v, v < t.length → v ≠ 0 → (str v).length = m → m ≤ d := by
    intro m
    induction m using Nat.strong_induction_on with
    | _ m ihm =>
      intro v hv hv0 hvd
      by_cases hmd : m ≤ d
      · exact hmd
      · exfalso
        obtain ⟨p, c, hp, hm, hpd⟩ := inv.parent_exists hv hv0
        by_cases hmd1 : m = d + 1
        · exact absurd (h.cover p hp (by omega) (List.not_mem_nil p) c v hm)
            (List.not_mem_nil v)
        · have hp0 : p ≠ 0 := by
            intro h0
            rw [h0, inv.str_root] at hpd
            simp at hpd
            omega
          have := ihm (m - 1) (by omega) p hp hp0 (by omega)
          omega
  intro v hv hv0
  exact h.low_can v hv hv0 (hnodeep _ v hv hv0 rfl)

/-- Correctness of the BFS loop: starting from any invariant state with
enough fuel, the loop terminates with every failure link canonical. -/
theorem bfsGo_correct {t : Trie} {str : Nat → List Char}
    (inv : TrieInv t str) (σ : Nat → List (Char × Nat))
    (hσ : ∀ v, v < t.length → (σ v).Perm (getNode t v).children) :
    ∀ (fuel : Nat) (T : Trie) (d : Nat) (A B done : List Nat),
      BfsInv t str d T A B done → (A = [] → B = []) →
      t.length ≤ fuel + done.length →
      SameShape (bfsGo σ fuel T (A ++ B)) t ∧
      (getNode (bfsGo σ fuel T (A ++ B)) 0).failure = 0 ∧
      (∀ v, v < t.length → v ≠ 0 →
        (getNode (bfsGo σ fuel T (A ++ B)) v).failure
          = suffNode t (str v).tail) := by
  intro fuel
  induction fuel with
  | zero =>
    intro T d A B done h hnorm hfuel
    exfalso
    have hbound : (done ++ (A ++ B)).length ≤ t.length - 1 := by
      refine nodup_bound h.nodup ?_
      intro x hx
      rcases List.mem_append.mp hx with hx | hx
      · exact ⟨(h.done_nodes x hx).1, (h.done_nodes x hx).2.1⟩
      · rcases List.mem_append.mp hx with hx | hx
        · exact ⟨(h.a_nodes x hx).1, (h.a_nodes x hx).2.1⟩
        · exact ⟨(h.b_nodes x hx).1, (h.b_nodes x hx).2.1⟩
    have := inv.root_lt
    simp only [List.length_append] at hbound
    omega
  | succ fuel ih =>
    intro T d A B done h hnorm hfuel
    rcases A with _ | ⟨current, A2⟩
    · obtain rfl : B = [] := hnorm rfl
      have hunf : bfsGo σ (fuel + 1) T (([] : List Nat) ++ []) = T := rfl
      rw [hunf]
      exact ⟨h.shape, h.root_fail, h.final inv⟩
    · obtain ⟨hclt, hc0, hcd⟩ := h.a_nodes current (List.mem_cons_self _ _)
      have hstep := h.step inv (hσ current hclt)
      have hunf : bfsGo σ (fuel + 1) T ((current :: A2) ++ B)
          = bfsGo σ fuel ((σ current).foldl (processChild current) T)
              ((A2 ++ B) ++ (σ current).map Prod.snd) := rfl
      rw [hunf]
      have hlen : (done ++ [current]).length = done.length + 1 := by
        rw [List.length_append]
        rfl
      by_cases hA2 : A2 = []
      · subst hA2
        have hflip := hstep.flip inv
        have harg : (([] : List Nat) ++ B) ++ (σ current).map Prod.snd
            = (B ++ (σ current).map Prod.snd) ++ [] := by
          simp
        rw [harg]
        exact ih ((σ current).foldl (processChild current) T) (d + 1)
          (B ++ (σ current).map Prod.snd) [] (done ++ [current]) hflip
          (fun _ => rfl) (by omega)
      · have harg : (A2 ++ B) ++ (σ current).map Prod.snd
            = A2 ++ (B ++ (σ current).map Prod.snd) := by
          rw [List.append_assoc]
        rw [harg]
        exact ih ((σ current).foldl (processChild current) T) d
          A2 (B ++ (σ current).map Prod.snd) (done ++ [current]) hstep
          (fun hh => absurd hh hA2) (by omega)

theorem setZeroFold_spec :
    ∀ (l : List Nat) (t : Trie), FailZero t →
      FailZero (l.foldl (fun tt ch => setFailure tt ch 0) t) ∧
      SameShape (l.foldl (fun tt ch => setFailure tt ch 0) t) t := by
  intro l
  induction l with
  | nil => intro t hf0; exact ⟨hf0, sameShape_refl t⟩
  | cons a l2 ih =>
    intro t hf0
    have h1 : FailZero (setFailure t a 0) := by
      intro v
      by_cases hv : v = a
      · subst hv
        by_cases hlt : v < t.length
        · rw [getNode_setFailure_same hlt]
        · rw [setFailure, List.set_eq_of_length_le (by omega)]
          exact hf0 v
      · rw [getNode_setFailure_other hv]
        exact hf0 v
    obtain ⟨hf, hsh⟩ := ih (setFailure t a 0) h1
    exact ⟨hf, sameShape_trans hsh setFailure_shape⟩

/-- Full correctness of the linking phase: for any iteration order that
enumerates each children map once, the linked table keeps the shape of the
input and gives every non-root state its canonical failure link. -/
theorem buildFailureLinksWith_correct {t : Trie} {str : Nat → List Char}
    (inv : TrieInv t str) (hf0 : FailZero t) (σ : Nat → List (Char × Nat))
    (hσ : ∀ v, v < t.length → (σ v).Perm (getNode t v).children) :
    SameShape (buildFailureLinksWith σ t) t ∧
    (getNode (buildFailureLinksWith σ t) 0).failure = 0 ∧
    (∀ v, v < t.length → v ≠ 0 →
      (getNode (buildFailureLinksWith σ t) v).failure
        = suffNode t (str v).tail) := by
  obtain ⟨hT0fz, hT0sh⟩ :=
    setZeroFold_spec ((σ 0).map Prod.snd) t hf0
  set rootKids := (σ 0).map Prod.snd with hrk
  set T0 := rootKids.foldl (fun tt ch => setFailure tt ch 0) t with hT0
  have hrootmem : ∀ a ∈ rootKids, ∃ c, (c, a) ∈ (getNode t 0).children := by
    intro a ha
    rw [hrk] at ha
    obtain ⟨e, he, rfl⟩ := List.mem_map.mp ha
    exact ⟨e.1, by rw [Prod.mk.eta]; exact (hσ 0 inv.root_lt).subset he⟩
  have hrfacts : ∀ a ∈ rootKids, a < t.length ∧ a ≠ 0 ∧ (str a).length = 1 := by
    intro a ha
    obtain ⟨c, hm⟩ := hrootmem a ha
    obtain ⟨h1, h2, h3⟩ := inv.edge 0 c a inv.root_lt hm
    refine ⟨h2, by omega, ?_⟩
    rw [h3, inv.str_root]
    rfl
  have hinv0 : BfsInv t str 1 T0 rootKids [] [] := by
    refine ⟨hT0sh, hT0fz 0, hrfacts, ?_, ?_, ?_, ?_, ?_, ?_, ?_⟩
    · exact fun b hb => absurd hb (List.not_mem_nil b)
    · intro v hv hv0 hvd
      have hv1 : (str v).length = 1 := by
        rcases Nat.lt_or_ge (str v).length 1 with hlt | hge
        · exfalso
          have : str v = [] := List.length_eq_zero.mp (by omega)
          exact hv0 (inv.inj v 0 hv inv.root_lt (by rw [this, inv.str_root]))
        · omega
      have htl : (str v).tail = [] := by
        have : (str v).tail.length = 0 := by
          rw [List.length_tail, hv1]
        exact List.length_eq_zero.mp this
      rw [hT0fz v, htl]
      rfl
    · exact fun b hb => absurd hb (List.not_mem_nil b)
    · intro v hv hvd hvA c u hm
      exfalso
      have hv0 : v ≠ 0 := by
        intro h0
        rw [h0, inv.str_root] at hvd
        simp at hvd
      obtain ⟨p, c2, hp, hm2, hpd⟩ := inv.parent_exists hv hv0
      have hp0 : str p = [] := List.length_eq_zero.mp (by omega)
      have hpe : p = 0 := inv.inj p 0 hp inv.root_lt (by rw [hp0, inv.str_root])
      rw [hpe] at hm2
      have hvk : v ∈ rootKids := by
        rw [hrk]
        exact List.mem_map.mpr ⟨(c2, v), (hσ 0 inv.root_lt).mem_iff.mpr hm2, rfl⟩
      exact hvA hvk
    · exact fun b hb => absurd hb (List.not_mem_nil b)
    · exact fun x hx => absurd hx (List.not_mem_nil x)
    · have : rootKids.Nodup := by
        rw [hrk]
        exact ((hσ 0 inv.root_lt).map Prod.snd).symm.nodup
          (inv.children_snd_nodup inv.root_lt)
      simpa using this
  have hmain := bfsGo_correct inv σ hσ t.length T0 1 rootKids [] [] hinv0
    (fun _ => rfl) (by simp)
  rw [List.append_nil] at hmain
  exact hmain

/-! ### Converting the output characterization to indexed sums -/

theorem filter_map_sum {α : Type} (l : List α) (p : α → Bool) (F : α → Int) :
    ((l.filter p).map F).sum = (l.map fun a => if p a then F a else 0).sum := by
  induction l with
  | nil => rfl
  | cons a l2 ih =>
    rw [List.filter_cons, List.map_cons, List.sum_cons]
    by_cases hpa : p a
    · rw [if_pos hpa, List.map_cons, List.sum_cons, ih, if_pos hpa]
    · rw [if_neg hpa, ih, if_neg hpa]
      omega

theorem enumFrom_map_sum (G : Nat × List Char → Int) :
    ∀ (l : List (List Char)) (k : Nat),
      ((List.enumFrom k l).map G).sum
        = ∑ j in Finset.range l.length, G (k + j, l.getD j []) := by
  intro l
  induction l with
  | nil => intro k; simp
  | cons a l2 ih =>
    intro k
    have hunf : List.enumFrom k (a :: l2) = (k, a) :: List.enumFrom (k + 1) l2 := rfl
    rw [hunf, List.map_cons, List.sum_cons, ih (k + 1), List.length_cons,
      Finset.sum_range_succ']
    have h1 : ∀ j ∈ Finset.range l2.length,
        G (k + 1 + j, l2.getD j []) = G (k + (j + 1), (a :: l2).getD (j + 1) []) := by
      intro j _
      have hn : k + 1 + j = k + (j + 1) := by omega
      rw [hn, List.getD_cons_succ]
    rw [Finset.sum_congr rfl h1]
    have h0 : G (k + 0, (a :: l2).getD 0 []) = G (k, a) := by
      rw [show k + 0 = k from rfl, List.getD_cons_zero]
    rw [h0]
    exact add_comm _ _

theorem mem_enumFrom_getD :
    ∀ (l : List (List Char)) (k j : Nat), j < l.length →
      (k + j, l.getD j []) ∈ List.enumFrom k l := by
  intro l
  induction l with
  | nil => intro k j hj; simp at hj
  | cons a l2 ih =>
    intro k j hj
    cases j with
    | zero =>
      left
    | succ j2 =>
      have hn : k + (j2 + 1) = (k + 1) + j2 := by omega
      rw [List.getD_cons_succ, hn]
      exact List.mem_cons_of_mem _ (ih (k + 1) j2 (by simp at hj; omega))

theorem mem_enum_getD (l : List (List Char)) (j : Nat) (hj : j < l.length) :
    (j, l.getD j []) ∈ l.enum := by
  have := mem_enumFrom_getD l 0 j hj
  rw [Nat.zero_add] at this
  exact this

theorem outSpec_sum {genes : List (List Char)} {health : List Int} {t : Trie}
    {str : Nat → List Char} (hout : OutSpec health t str genes.enum)
    (lo hi : Nat) :
    ∀ v, v < t.length →
      ((getNode t v).output.map fun p =>
          if lo ≤ p.1 ∧ p.1 ≤ hi then p.2 else 0).sum
        = ∑ j in Finset.range genes.length,
            if genes.getD j [] = str v ∧ lo ≤ j ∧ j ≤ hi
            then health.getD j 0 else 0 := by
  intro v hv
  rw [hout v hv, List.map_map, filter_map_sum]
  have henum : genes.enum = List.enumFrom 0 genes := rfl
  rw [henum, enumFrom_map_sum]
  refine Finset.sum_congr rfl ?_
  intro j hj
  rw [Nat.zero_add]
  dsimp only [Function.comp]
  by_cases h1 : genes.getD j [] = str v
  · rw [if_pos (by rw [decide_eq_true_eq]; exact h1)]
    by_cases h2 : lo ≤ j ∧ j ≤ hi
    · rw [if_pos h2, if_pos ⟨h1, h2⟩]
    · rw [if_neg h2, if_neg (fun hh => h2 hh.2)]
  · rw [if_neg (by rw [decide_eq_true_eq]; exact h1), if_neg (fun hh => h1 hh.1)]

/-! ### The master characterization of search over the linked automaton -/

/-- For every iteration order of the linking phase, search over the linked
automaton computes the range-filtered occurrence sum: for every start
position of the text and every gene of the range that is nonempty and
occurs there, its health value is added once. -/
theorem search_linkedWith (genes : List (List Char)) (health : List Int)
    (σ : Nat → List (Char × Nat))
    (hσ : ∀ v, v < (buildTrie genes health).length →
      (σ v).Perm (getNode (buildTrie genes health) v).children)
    (lo hi : Nat) (text : List Char) :
    search (buildFailureLinksWith σ (buildTrie genes health)) text lo hi
      = ∑ i in Finset.range text.length,
          ∑ j in Finset.range genes.length,
            if genes.getD j [] ≠ [] ∧ genes.getD j [] <+: text.drop i
              ∧ lo ≤ j ∧ j ≤ hi
            then health.getD j 0 else 0 := by
  obtain ⟨str, inv, hf0, hout, hpats⟩ := buildTrie_spec genes health
  obtain ⟨hsh, hroot, hcanon⟩ := buildFailureLinksWith_correct inv hf0 σ hσ
  set bt := buildTrie genes health with hbt
  set T := buildFailureLinksWith σ bt with hT
  have invT : TrieInv T str := inv.of_sameShape hsh
  have hcanT : ∀ u, u < T.length → u ≠ 0 → canonical T str u := by
    intro u hu hu0
    rw [canonical, hsh.suffNode_eq]
    exact hcanon u (by rw [← hsh.1]; exact hu) hu0
  have houtT : ∀ v, v < T.length → v ≠ 0 →
      ((getNode T v).output.map fun p =>
          if lo ≤ p.1 ∧ p.1 ≤ hi then p.2 else 0).sum
        = ∑ j in Finset.range genes.length,
            if genes.getD j [] = str v ∧ lo ≤ j ∧ j ≤ hi
            then health.getD j 0 else 0 := by
    intro v hv _
    rw [(hsh.2 v).2]
    exact outSpec_sum hout lo hi v (by rw [← hsh.1]; exact hv)
  have hpresT : ∀ j, j < genes.length → genes.getD j [] ≠ [] →
      ∃ x, findNode T (genes.getD j []) = some x := by
    intro j hj _
    obtain ⟨x, hx⟩ := hpats (j, genes.getD j []) (mem_enum_getD genes j hj)
    refine ⟨x, ?_⟩
    rw [findNode, findNodeFrom_congr (fun v => (hsh.2 v).1)]
    exact hx
  rw [search_canonical invT hcanT genes health lo hi houtT hpresT text]
  rw [Finset.sum_comm]
  conv_rhs => rw [Finset.sum_comm]
  refine Finset.sum_congr rfl ?_
  intro j _
  by_cases hg : genes.getD j [] ≠ [] ∧ lo ≤ j ∧ j ≤ hi
  · have hA : ∀ i ∈ Finset.range text.length,
        (if genes.getD j [] ≠ [] ∧ genes.getD j [] <:+ text.take (i + 1)
            ∧ lo ≤ j ∧ j ≤ hi then health.getD j 0 else 0)
          = if genes.getD j [] <:+ text.take (i + 1) then health.getD j 0 else 0 := by
      intro i _
      by_cases hs : genes.getD j [] <:+ text.take (i + 1)
      · rw [if_pos ⟨hg.1, hs, hg.2⟩, if_pos hs]
      · rw [if_neg (fun hh => hs hh.2.1), if_neg hs]
    have hB : ∀ i ∈ Finset.range text.length,
        (if genes.getD j [] ≠ [] ∧ genes.getD j [] <+: text.drop i
            ∧ lo ≤ j ∧ j ≤ hi then health.getD j 0 else 0)
          = if genes.getD j [] <+: text.drop i then health.getD j 0 else 0 := by
      intro i _
      by_cases hs : genes.getD j [] <+: text.drop i
      · rw [if_pos ⟨hg.1, hs, hg.2⟩, if_pos hs]
      · rw [if_neg (fun hh => hs hh.2.1), if_neg hs]
    rw [Finset.sum_congr rfl hA, Finset.sum_congr rfl hB]
    exact count_reindex hg.1 text (health.getD j 0)
  · have hA : ∀ i ∈ Finset.range text.length,
        (if genes.getD j [] ≠ [] ∧ genes.getD j [] <:+ text.take (i + 1)
            ∧ lo ≤ j ∧ j ≤ hi then health.getD j 0 else 0) = 0 := by
      intro i _
      rw [if_neg (fun hh => hg ⟨hh.1, hh.2.2⟩)]
    have hB : ∀ i ∈ Finset.range text.length,
        (if genes.getD j [] ≠ [] ∧ genes.getD j [] <+: text.drop i
            ∧ lo ≤ j ∧ j ≤ hi then health.getD j 0 else 0) = 0 := by
      intro i _
      rw [if_neg (fun hh => hg ⟨hh.1, hh.2.2⟩)]
    rw [Finset.sum_congr rfl hA, Finset.sum_congr rfl hB]

/-- Canonical instantiation: the stored children order is trivially a
permutation of itself. -/
theorem search_linked (genes : List (List Char)) (health : List Int)
    (lo hi : Nat) (text : List Char) :
    search (build_failure_links (buildTrie genes health)) text lo hi
      = ∑ i in Finset.range text.length,
          ∑ j in Finset.range genes.length,
            if genes.getD j [] ≠ [] ∧ genes.getD j [] <+: text.drop i
              ∧ lo ≤ j ∧ j ≤ hi
            then health.getD j 0 else 0 :=
  search_linkedWith genes health _ (fun _ _ => List.Perm.refl _) lo hi text

/-! ### Determinism of the linked automaton -/

theorem trieNode_eq {a b : TrieNode} (h1 : a.children = b.children)
    (h2 : a.failure = b.failure) (h3 : a.output = b.output) : a = b := by
  cases a
  cases b
  simp_all

theorem get_eq_getNode {t : Trie} {v : Nat} (h : v < t.length) :
    t.get ⟨v, h⟩ = getNode t v := by
  rw [getNode_eq_get?, List.getElem?_eq_getElem h]
  rfl

/-- The linked automaton does not depend on the iteration order used by the
linking phase: any two orders produce the same state table. -/
theorem linkWith_eq (genes : List (List Char)) (health : List Int)
    (σ1 σ2 : Nat → List (Char × Nat))
    (h1 : ∀ v, v < (buildTrie genes health).length →
      (σ1 v).Perm (getNode (buildTrie genes health) v).children)
    (h2 : ∀ v, v < (buildTrie genes health).length →
      (σ2 v).Perm (getNode (buildTrie genes health) v).children) :
    buildFailureLinksWith σ1 (buildTrie genes health)
      = buildFailureLinksWith σ2 (buildTrie genes health) := by
  obtain ⟨str, inv, hf0, -, -⟩ := buildTrie_spec genes health
  obtain ⟨hsh1, hroot1, hcanon1⟩ := buildFailureLinksWith_correct inv hf0 σ1 h1
  obtain ⟨hsh2, hroot2, hcanon2⟩ := buildFailureLinksWith_correct inv hf0 σ2 h2
  refine List.ext_get (hsh1.1.trans hsh2.1.symm) ?_
  intro n hn1 hn2
  rw [get_eq_getNode hn1, get_eq_getNode hn2]
  have hnb : n < (buildTrie genes health).length := by rw [← hsh1.1]; exact hn1
  refine trieNode_eq ((hsh1.2 n).1.trans ((hsh2.2 n).1).symm) ?_
    ((hsh1.2 n).2.trans ((hsh2.2 n).2).symm)
  by_cases hn0 : n = 0
  · subst hn0
    rw [hroot1, hroot2]
  · rw [hcanon1 n hnb hn0, hcanon2 n hnb hn0]

/-! ### Failure-chain depth and termination -/

/-- Iterate the failure link k times. -/
def failIter (t : Trie) : Nat → Nat → Nat
  | 0, v => v
  | k + 1, v => failIter t k (getNode t v).failure

/-- Depth facts of the linked automaton: there is a depth function that is 0
at the root and increases by one along every transition, strictly decreases
along every failure link of a non-root state, and bounds the length of every
failure-chain walk, which therefore reaches the root. -/
theorem failure_depth_spec (genes : List (List Char)) (health : List Int)
    (σ : Nat → List (Char × Nat))
    (hσ : ∀ v, v < (buildTrie genes health).length →
      (σ v).Perm (getNode (buildTrie genes health) v).children) :
    ∃ depth : Nat → Nat, depth 0 = 0 ∧
      (∀ v c u, v < (buildFailureLinksWith σ (buildTrie genes health)).length →
        (c, u) ∈ (getNode (buildFailureLinksWith σ (buildTrie genes health)) v).children →
        depth u = depth v + 1) ∧
      (∀ v, v < (buildFailureLinksWith σ (buildTrie genes health)).length → v ≠ 0 →
        depth ((getNode (buildFailureLinksWith σ (buildTrie genes health)) v).failure)
          < depth v) ∧
      (∀ v, v < (buildFailureLinksWith σ (buildTrie genes health)).length →
        ∃ k, k ≤ depth v ∧
          failIter (buildFailureLinksWith σ (buildTrie genes health)) k v = 0) := by
  obtain ⟨str, inv, hf0, -, -⟩ := buildTrie_spec genes health
  obtain ⟨hsh, hroot, hcanon⟩ := buildFailureLinksWith_correct inv hf0 σ hσ
  set bt := buildTrie genes health with hbt
  set T := buildFailureLinksWith σ bt with hT
  refine ⟨fun v => (str v).length, by simp [inv.str_root], ?_, ?_, ?_⟩
  · intro v c u hv hm
    dsimp only
    rw [(hsh.2 v).1] at hm
    obtain ⟨-, -, h3⟩ := inv.edge v c u (by rw [← hsh.1]; exact hv) hm
    rw [h3]
    simp
  · intro v hv hv0
    dsimp only
    have hvb : v < bt.length := by rw [← hsh.1]; exact hv
    rw [hcanon v hvb hv0]
    have hle := (inv.str_suffNode_suffix (str v).tail).length_le
    rw [List.length_tail] at hle
    have hne : str v ≠ [] := inv.str_ne_nil hvb hv0
    have : 1 ≤ (str v).length := by
      rcases he : str v with _ | ⟨a, l⟩
      · exact absurd he hne
      · simp
    omega
  · have hdec : ∀ (m : Nat) (v : Nat), v < T.length → (str v).length ≤ m →
        ∃ k, k ≤ (str v).length ∧ failIter T k v = 0 := by
      intro m
      induction m with
      | zero =>
        intro v hv hvd
        have hstr : str v = [] := List.length_eq_zero.mp (by omega)
        have hv0 : v = 0 :=
          inv.inj v 0 (by rw [← hsh.1]; exact hv) inv.root_lt
            (by rw [hstr, inv.str_root])
        exact ⟨0, by omega, by rw [hv0]; rfl⟩
      | succ m ihm =>
        intro v hv hvd
        by_cases hv0 : v = 0
        · exact ⟨0, by omega, by rw [hv0]; rfl⟩
        · have hvb : v < bt.length := by rw [← hsh.1]; exact hv
          have hcanv := hcanon v hvb hv0
          have hflt : (getNode T v).failure < T.length := by
            rw [hcanv, hsh.1]
            exact inv.suffNode_lt _
          have hfd : (str ((getNode T v).failure)).length ≤ (str v).length - 1 := by
            rw [hcanv]
            have hle := (inv.str_suffNode_suffix (str v).tail).length_le
            rw [List.length_tail] at hle
            exact hle
          have hne : str v ≠ [] := inv.str_ne_nil hvb hv0
          have hge1 : 1 ≤ (str v).length := by
            rcases he : str v with _ | ⟨a, l⟩
            · exact absurd he hne
            · simp
          obtain ⟨k, hk1, hk2⟩ := ihm ((getNode T v).failure) hflt (by omega)
          exact ⟨k + 1, by omega, hk2⟩
    intro v hv
    exact hdec (str v).length v hv le_rfl

/-! ### The min and max aggregation of dna_health -/

theorem foldl_pair_minmax (t : Trie) :
    ∀ (l : List (Int × Int × List Char)) (a b : Int),
      l.foldl (fun (p : Int × Int) q =>
          let h := strandSum t q
          (min p.1 h, max p.2 h)) (a, b)
        = ((l.map (strandSum t)).foldl min a, (l.map (strandSum t)).foldl max b) := by
  intro l
  induction l with
  | nil => intro a b; rfl
  | cons q l2 ih =>
    intro a b
    rw [List.foldl_cons, List.map_cons, List.foldl_cons, List.foldl_cons]
    exact ih (min a (strandSum t q)) (max b (strandSum t q))

theorem dna_health_eq (genes : List (List Char)) (health : List Int)
    (strands : List (Int × Int × List Char)) :
    dna_health genes health strands
      = toString ((strands.map
            (strandSum (build_failure_links (buildTrie genes health)))).foldl
            min i64Max)
        ++ " "
        ++ toString ((strands.map
            (strandSum (build_failure_links (buildTrie genes health)))).foldl
            max i64Min) := by
  rw [dna_health, foldl_pair_minmax]

theorem foldl_min_le (l : List Int) :
    ∀ a : Int, l.foldl min a ≤ a ∧ ∀ x ∈ l, l.foldl min a ≤ x := by
  induction l with
  | nil => intro a; exact ⟨le_refl a, by simp⟩
  | cons b l2 ih =>
    intro a
    rw [List.foldl_cons]
    obtain ⟨h1, h2⟩ := ih (min a b)
    refine ⟨h1.trans (min_le_left a b), ?_⟩
    intro x hx
    rcases List.mem_cons.mp hx with rfl | hx
    · exact h1.trans (min_le_right a x)
    · exact h2 x hx

theorem foldl_min_mem (l : List Int) :
    ∀ a : Int, l.foldl min a = a ∨ l.foldl min a ∈ l := by
  induction l with
  | nil => intro a; exact Or.inl rfl
  | cons b l2 ih =>
    intro a
    rw [List.foldl_cons]
    rcases ih (min a b) with h | h
    · rcases min_cases a b with ⟨hm, -⟩ | ⟨hm, -⟩
      · exact Or.inl (h.trans hm)
      · exact Or.inr (by rw [h, hm]; exact List.mem_cons_self _ _)
    · exact Or.inr (List.mem_cons_of_mem b h)

theorem foldl_max_ge (l : List Int) :
    ∀ a : Int, a ≤ l.foldl max a ∧ ∀ x ∈ l, x ≤ l.foldl max a := by
  induction l with
  | nil => intro a; exact ⟨le_refl a, by simp⟩
  | cons b l2 ih =>
    intro a
    rw [List.foldl_cons]
    obtain ⟨h1, h2⟩ := ih (max a b)
    refine ⟨(le_max_left a b).trans h1, ?_⟩
    intro x hx
    rcases List.mem_cons.mp hx with rfl | hx
    · exact (le_max_right a x).trans h1
    · exact h2 x hx

theorem foldl_max_mem (l : List Int) :
    ∀ a : Int, l.foldl max a = a ∨ l.foldl max a ∈ l := by
  induction l with
  | nil => intro a; exact Or.inl rfl
  | cons b l2 ih =>
    intro a
    rw [List.foldl_cons]
    rcases ih (max a b) with h | h
    · rcases max_cases a b with ⟨hm, -⟩ | ⟨hm, -⟩
      · exact Or.inl (h.trans hm)
      · exact Or.inr (by rw [h, hm]; exact List.mem_cons_self _ _)
    · exact Or.inr (List.mem_cons_of_mem b h)

theorem foldl_min_attains {l : List Int} (hne : l ≠ [])
    (hbound : ∀ x ∈ l, x ≤ i64Max) :
    l.foldl min i64Max ∈ l ∧ ∀ x ∈ l, l.foldl min i64Max ≤ x := by
  obtain ⟨-, hle⟩ := foldl_min_le l i64Max
  refine ⟨?_, hle⟩
  rcases foldl_min_mem l i64Max with h | h
  · rcases l with _ | ⟨x0, l2⟩
    · exact absurd rfl hne
    · have h1 := hle x0 (List.mem_cons_self _ _)
      have h2 := hbound x0 (List.mem_cons_self _ _)
      have hx0 : x0 = i64Max := le_antisymm h2 (by rw [← h]; exact h1)
      rw [h, ← hx0]
      exact List.mem_cons_self _ _
  · exact h

theorem foldl_max_attains {l : List Int} (hne : l ≠ [])
    (hbound : ∀ x ∈ l, i64Min ≤ x) :
    l.foldl max i64Min ∈ l ∧ ∀ x ∈ l, x ≤ l.foldl max i64Min := by
  obtain ⟨-, hge⟩ := foldl_max_ge l i64Min
  refine ⟨?_, hge⟩
  rcases foldl_max_mem l i64Min with h | h
  · rcases l with _ | ⟨x0, l2⟩
    · exact absurd rfl hne
    · have h1 := hge x0 (List.mem_cons_self _ _)
      have h2 := hbound x0 (List.mem_cons_self _ _)
      have hx0 : x0 = i64Min := le_antisymm (by rw [← h]; exact h1) h2
      rw [h, ← hx0]
      exact List.mem_cons_self _ _
  · exact h

/-! ### The reference scanner as an indexed sum -/

theorem list_range_map_sum (f : Nat → Int) :
    ∀ n : Nat, ((List.range n).map f).sum = ∑ i in Finset.range n, f i := by
  intro n
  induction n with
  | zero => rfl
  | succ n ih =>
    rw [List.range_succ, List.map_append, List.sum_append, ih,
      Finset.sum_range_succ]
    simp

theorem zip_map_sum (F : List Char × Int → Int) :
    ∀ (l1 : List (List Char)) (l2 : List Int),
      ((l1.zip l2).map F).sum
        = ∑ j in Finset.range (min l1.length l2.length),
            F (l1.getD j [], l2.getD j 0) := by
  intro l1
  induction l1 with
  | nil => intro l2; simp
  | cons a l1t ih =>
    intro l2
    cases l2 with
    | nil => simp
    | cons b l2t =>
      rw [List.zip_cons_cons, List.map_cons, List.sum_cons, ih l2t]
      have hmin : min (a :: l1t).length (b :: l2t).length
          = min l1t.length l2t.length + 1 := by
        simp only [List.length_cons]
        omega
      rw [hmin, Finset.sum_range_succ']
      have h1 : ∀ j ∈ Finset.range (min l1t.length l2t.length),
          F ((a :: l1t).getD (j + 1) [], (b :: l2t).getD (j + 1) 0)
            = F (l1t.getD j [], l2t.getD j 0) := by
        intro j _
        rw [List.getD_cons_succ, List.getD_cons_succ]
      rw [Finset.sum_congr rfl h1, List.getD_cons_zero, List.getD_cons_zero]
      exact add_comm _ _

theorem naive_sum (genes : List (List Char)) (health : List Int)
    (hlen : health.length = genes.length) (dna : List Char) :
    naiveStrandSum genes health 0 (genes.length - 1) dna
      = ∑ i in Finset.range dna.length,
          ∑ j in Finset.range genes.length,
            if genes.getD j [] <+: dna.drop i then health.getD j 0 else 0 := by
  have hg : (genes.drop 0).take (genes.length - 1 + 1 - 0) = genes := by
    rw [List.drop_zero]
    exact List.take_of_length_le (by omega)
  have hh : (health.drop 0).take (genes.length - 1 + 1 - 0) = health := by
    rw [List.drop_zero]
    exact List.take_of_length_le (by omega)
  rw [naiveStrandSum]
  simp only [hg, hh]
  rw [list_range_map_sum]
  refine Finset.sum_congr rfl fun i _ => ?_
  rw [zip_map_sum (fun g => if g.1.isPrefixOf (dna.drop i) then g.2 else 0)
    genes health]
  rw [hlen, min_self]
  refine Finset.sum_congr rfl fun j _ => ?_
  by_cases hp : genes.getD j [] <+: dna.drop i
  · rw [if_pos (List.isPrefixOf_iff_prefix.mpr hp), if_pos hp]
  · rw [if_neg (fun hh2 => hp (List.isPrefixOf_iff_prefix.mp hh2)), if_neg hp]

theorem getD_mem_of_lt {l : List (List Char)} {j : Nat} (hj : j < l.length) :
    l.getD j [] ∈ l := by
  rw [List.getD_eq_getElem?_getD, List.getElem?_eq_getElem hj]
  exact List.getElem_mem hj

theorem health_getD_nonneg {health : List Int} (hw : ∀ w ∈ health, 0 ≤ w)
    (j : Nat) : 0 ≤ health.getD j 0 := by
  by_cases hj : j < health.length
  · refine hw _ ?_
    rw [List.getD_eq_getElem?_getD, List.getElem?_eq_getElem hj]
    exact List.getElem_mem hj
  · rw [List.getD_eq_getElem?_getD, List.getElem?_eq_none (by omega)]
    exact le_refl 0

/-! ### Claim theorems -/

/-- C1, counterexample: the claim quantifies over every pattern set, but on a
set containing the empty pattern the matcher and the reference scanner
disagree: for pattern set with the single empty pattern of weight 5 and text
a, the matcher over the full range [0, 0] returns 0 while the reference
occurrence sum (one occurrence of the empty pattern at offset 0) is 5. -/
theorem claim_C1_counterexample :
    search (build_failure_links (buildTrie [[]] [5])) ("a".toList) 0 0 = 0 ∧
    naiveStrandSum [[]] [5] 0 0 ("a".toList) = 5 := by
  constructor <;> rfl

/-- C1, amended: for every pattern set whose patterns are all nonempty and
every text, the matcher-plus-aggregator over the full index range
[0, pattern_count - 1] equals the reference occurrence sum of the
brute-force scanner (overlapping and nested occurrences counted
individually, weighted by health value). -/
theorem claim_C1 (genes : List (List Char)) (health : List Int)
    (hne : ∀ g ∈ genes, g ≠ []) (hlen : health.length = genes.length)
    (text : List Char) :
    search (build_failure_links (buildTrie genes health)) text 0 (genes.length - 1)
      = naiveStrandSum genes health 0 (genes.length - 1) text := by
  rw [search_linked, naive_sum genes health hlen text]
  refine Finset.sum_congr rfl fun i _ => Finset.sum_congr rfl fun j hj => ?_
  have hj2 := Finset.mem_range.mp hj
  have hgne : genes.getD j [] ≠ [] := hne _ (getD_mem_of_lt hj2)
  by_cases hp : genes.getD j [] <+: text.drop i
  · rw [if_pos ⟨hgne, hp, Nat.zero_le j, by omega⟩, if_pos hp]
  · rw [if_neg (fun hh => hp hh.2.1), if_neg hp]

/-- C1, witness: the amended equivalence at a concrete instance. -/
theorem claim_C1_witness :
    (∀ g ∈ ["a".toList, "ab".toList], g ≠ []) ∧
    ([(3 : Int), 4].length = ["a".toList, "ab".toList].length) ∧
    search (build_failure_links (buildTrie ["a".toList, "ab".toList] [3, 4]))
        ("ab".toList) 0 1
      = naiveStrandSum ["a".toList, "ab".toList] [3, 4] 0 1 ("ab".toList) := by
  have h1 : ∀ g ∈ ["a".toList, "ab".toList], g ≠ [] := by decide
  exact ⟨h1, rfl, claim_C1 ["a".toList, "ab".toList] [3, 4] h1 rfl ("ab".toList)⟩

/-- C2: for the patterns he, she, his, hers with weights 1, 2, 3, 4, the text
shers and the range [0, 3], the query evaluation returns 7, recovering the
overlapping matches she, he and hers while his contributes nothing. -/
theorem claim_C2 :
    search (build_failure_links (buildTrie
        ["he".toList, "she".toList, "his".toList, "hers".toList] [1, 2, 3, 4]))
      ("shers".toList) 0 3 = 7 := by
  decide

/-- C3, counterexample: an inverted range is not rejected and no InvalidRange
error exists; the query simply evaluates, returning 0 on the inverted range
[1, 0] where the same automaton and text return 5 on the valid range
[0, 0]. -/
theorem claim_C3_counterexample :
    search (build_failure_links (buildTrie ["a".toList] [5])) ("a".toList) 1 0 = 0 ∧
    search (build_failure_links (buildTrie ["a".toList] [5])) ("a".toList) 0 0 = 5 := by
  constructor <;> rfl

/-- C3, amended: query evaluation performs no range validation; an inverted
range yields the sum 0 because no gene index satisfies the filter, and
out-of-range indices simply contribute nothing. -/
theorem claim_C3 (genes : List (List Char)) (health : List Int)
    (s e : Nat) (h : e < s) (text : List Char) :
    search (build_failure_links (buildTrie genes health)) text s e = 0 := by
  rw [search_linked]
  refine Finset.sum_eq_zero fun i _ => Finset.sum_eq_zero fun j _ => ?_
  rw [if_neg]
  rintro ⟨-, -, h1, h2⟩
  omega

/-- C3, witness: the amended statement at a concrete inverted range. -/
theorem claim_C3_witness :
    (0 : Nat) < 2 ∧
    search (build_failure_links (buildTrie ["ab".toList] [7])) ("abab".toList) 2 0
      = 0 :=
  ⟨by decide, claim_C3 ["ab".toList] [7] 2 0 (by decide) ("abab".toList)⟩

/-- C4, counterexample: automaton construction does not fail on an empty
pattern; buildTrie on the single empty pattern of weight 7 succeeds and
returns the one-state automaton whose root output holds the entry, whereas
the spec-side builder modelled from section 6 rejects the same input. -/
theorem claim_C4_counterexample :
    buildTrie [[]] [7] = [⟨[], 0, [(0, 7)]⟩] ∧
    specBuild [[]] [7] = Except.error "InvalidPattern" := by
  constructor <;> rfl

/-- C4, amended: construction accepts a pattern of length zero without any
error; the (index, weight) entry of every empty pattern ends up in the root
output list of the built automaton. -/
theorem claim_C4 (genes : List (List Char)) (health : List Int) (j : Nat)
    (hj : j < genes.length) (hempty : genes.getD j [] = []) :
    (j, health.getD j 0) ∈ (getNode (buildTrie genes health) 0).output := by
  obtain ⟨str, inv, hf0, hout, hpats⟩ := buildTrie_spec genes health
  rw [hout 0 inv.root_lt]
  refine List.mem_map.mpr ⟨(j, genes.getD j []), ?_, rfl⟩
  rw [List.mem_filter]
  refine ⟨mem_enum_getD genes j hj, ?_⟩
  rw [decide_eq_true_eq, hempty, inv.str_root]

/-- C4, witness: the amended statement at a concrete instance. -/
theorem claim_C4_witness :
    (0 : Nat) < 2 ∧ ([[], "a".toList].getD 0 [] = []) ∧
    ((0 : Nat), (7 : Int)) ∈ (getNode (buildTrie [[], "a".toList] [7, 3]) 0).output :=
  ⟨by decide, rfl, claim_C4 [[], "a".toList] [7, 3] 0 (by decide) rfl⟩

/-- C5: the linked automaton admits a depth function, zero at the root and
increasing by one along every transition, that strictly decreases along the
failure link of every non-root state; consequently every failure-chain walk
reaches the root within depth steps, so all walks performed by the matcher
terminate. -/
theorem claim_C5 (genes : List (List Char)) (health : List Int)
    (σ : Nat → List (Char × Nat))
    (hσ : ∀ v, v < (buildTrie genes health).length →
      (σ v).Perm (getNode (buildTrie genes health) v).children) :
    ∃ depth : Nat → Nat, depth 0 = 0 ∧
      (∀ v c u, v < (buildFailureLinksWith σ (buildTrie genes health)).length →
        (c, u) ∈ (getNode (buildFailureLinksWith σ (buildTrie genes health)) v).children →
        depth u = depth v + 1) ∧
      (∀ v, v < (buildFailureLinksWith σ (buildTrie genes health)).length → v ≠ 0 →
        depth ((getNode (buildFailureLinksWith σ (buildTrie genes health)) v).failure)
          < depth v) ∧
      (∀ v, v < (buildFailureLinksWith σ (buildTrie genes health)).length →
        ∃ k, k ≤ depth v ∧
          failIter (buildFailureLinksWith σ (buildTrie genes health)) k v = 0) :=
  failure_depth_spec genes health σ hσ

/-- C5, witness: the depth facts at a concrete automaton with the stored
iteration order. -/
theorem claim_C5_witness :
    (∀ v, v < (buildTrie ["ab".toList, "b".toList] [1, 2]).length →
      ((fun u => (getNode (buildTrie ["ab".toList, "b".toList] [1, 2]) u).children) v).Perm
        (getNode (buildTrie ["ab".toList, "b".toList] [1, 2]) v).children) ∧
    (∃ depth : Nat → Nat, depth 0 = 0 ∧
      (∀ v c u,
        v < (buildFailureLinksWith
          (fun u => (getNode (buildTrie ["ab".toList, "b".toList] [1, 2]) u).children)
          (buildTrie ["ab".toList, "b".toList] [1, 2])).length →
        (c, u) ∈ (getNode (buildFailureLinksWith
          (fun u => (getNode (buildTrie ["ab".toList, "b".toList] [1, 2]) u).children)
          (buildTrie ["ab".toList, "b".toList] [1, 2])) v).children →
        depth u = depth v + 1) ∧
      (∀ v,
        v < (buildFailureLinksWith
          (fun u => (getNode (buildTrie ["ab".toList, "b".toList] [1, 2]) u).children)
          (buildTrie ["ab".toList, "b".toList] [1, 2])).length → v ≠ 0 →
        depth ((getNode (buildFailureLinksWith
          (fun u => (getNode (buildTrie ["ab".toList, "b".toList] [1, 2]) u).children)
          (buildTrie ["ab".toList, "b".toList] [1, 2])) v).failure) < depth v) ∧
      (∀ v,
        v < (buildFailureLinksWith
          (fun u => (getNode (buildTrie ["ab".toList, "b".toList] [1, 2]) u).children)
          (buildTrie ["ab".toList, "b".toList] [1, 2])).length →
        ∃ k, k ≤ depth v ∧
          failIter (buildFailureLinksWith
            (fun u => (getNode (buildTrie ["ab".toList, "b".toList] [1, 2]) u).children)
            (buildTrie ["ab".toList, "b".toList] [1, 2])) k v = 0)) :=
  ⟨fun _ _ => List.Perm.refl _,
    claim_C5 ["ab".toList, "b".toList] [1, 2] _ (fun _ _ => List.Perm.refl _)⟩

/-- C6: the query result does not depend on the iteration order used over
the children maps during the linking phase; any two enumeration orders give
the same sum for every query against the same pattern set. -/
theorem claim_C6 (genes : List (List Char)) (health : List Int)
    (σ1 σ2 : Nat → List (Char × Nat))
    (h1 : ∀ v, v < (buildTrie genes health).length →
      (σ1 v).Perm (getNode (buildTrie genes health) v).children)
    (h2 : ∀ v, v < (buildTrie genes health).length →
      (σ2 v).Perm (getNode (buildTrie genes health) v).children)
    (s e : Nat) (text : List Char) :
    search (buildFailureLinksWith σ1 (buildTrie genes health)) text s e
      = search (buildFailureLinksWith σ2 (buildTrie genes health)) text s e := by
  rw [linkWith_eq genes health σ1 σ2 h1 h2]

/-- C6, witness: the stored order and the reversed order give the same sum
at a concrete instance. -/
theorem claim_C6_witness :
    (∀ v, v < (buildTrie ["he".toList, "she".toList] [1, 2]).length →
      ((fun u => (getNode (buildTrie ["he".toList, "she".toList] [1, 2]) u).children) v).Perm
        (getNode (buildTrie ["he".toList, "she".toList] [1, 2]) v).children) ∧
    (∀ v, v < (buildTrie ["he".toList, "she".toList] [1, 2]).length →
      ((fun u => (getNode (buildTrie ["he".toList, "she".toList] [1, 2]) u).children.reverse) v).Perm
        (getNode (buildTrie ["he".toList, "she".toList] [1, 2]) v).children) ∧
    search (buildFailureLinksWith
        (fun u => (getNode (buildTrie ["he".toList, "she".toList] [1, 2]) u).children)
        (buildTrie ["he".toList, "she".toList] [1, 2])) ("she".toList) 0 1
      = search (buildFailureLinksWith
          (fun u => (getNode (buildTrie ["he".toList, "she".toList] [1, 2]) u).children.reverse)
          (buildTrie ["he".toList, "she".toList] [1, 2])) ("she".toList) 0 1 :=
  ⟨fun _ _ => List.Perm.refl _, fun _ _ => List.reverse_perm _,
    claim_C6 ["he".toList, "she".toList] [1, 2] _ _
      (fun _ _ => List.Perm.refl _) (fun _ _ => List.reverse_perm _) 0 1 ("she".toList)⟩

/-- C7, counterexample: with a negative weight, narrowing the range can
increase the sum: on patterns a, b with weights 1, -5 and text b, the wider
range [0, 1] gives -5 while the narrower range [0, 0] gives 0. -/
theorem claim_C7_counterexample :
    search (build_failure_links (buildTrie ["a".toList, "b".toList] [1, -5]))
        ("b".toList) 0 1
      < search (build_failure_links (buildTrie ["a".toList, "b".toList] [1, -5]))
          ("b".toList) 0 0 := by
  decide

/-- C7, amended: when every weight is nonnegative, narrowing the query range
can only decrease or keep equal the resulting sum. -/
theorem claim_C7 (genes : List (List Char)) (health : List Int)
    (hw : ∀ w ∈ health, 0 ≤ w) (s e s2 e2 : Nat)
    (hs : s ≤ s2) (he : e2 ≤ e) (text : List Char) :
    search (build_failure_links (buildTrie genes health)) text s2 e2
      ≤ search (build_failure_links (buildTrie genes health)) text s e := by
  rw [search_linked, search_linked]
  refine Finset.sum_le_sum fun i _ => Finset.sum_le_sum fun j _ => ?_
  by_cases hc : genes.getD j [] ≠ [] ∧ genes.getD j [] <+: text.drop i
    ∧ s2 ≤ j ∧ j ≤ e2
  · rw [if_pos hc, if_pos ⟨hc.1, hc.2.1, by omega, by omega⟩]
  · rw [if_neg hc]
    by_cases hc2 : genes.getD j [] ≠ [] ∧ genes.getD j [] <+: text.drop i
      ∧ s ≤ j ∧ j ≤ e
    · rw [if_pos hc2]
      exact health_getD_nonneg hw j
    · rw [if_neg hc2]

/-- C7, witness: the amended monotonicity at a concrete instance with
nonnegative weights. -/
theorem claim_C7_witness :
    (∀ w ∈ [(1 : Int), 5], 0 ≤ w) ∧ (0 : Nat) ≤ 1 ∧ (1 : Nat) ≤ 1 ∧
    search (build_failure_links (buildTrie ["a".toList, "b".toList] [1, 5]))
        ("ab".toList) 1 1
      ≤ search (build_failure_links (buildTrie ["a".toList, "b".toList] [1, 5]))
          ("ab".toList) 0 1 :=
  ⟨by decide, by decide, by decide,
    claim_C7 ["a".toList, "b".toList] [1, 5] (by decide) 0 1 1 1
      (by decide) (by decide) ("ab".toList)⟩

/-- C8: over a non-empty batch of queries whose sums fit in the i64 range,
the rendered result is exactly the minimum and the maximum of the per-query
sums, as two decimal integers separated by a single space. -/
theorem claim_C8 (genes : List (List Char)) (health : List Int)
    (strands : List (Int × Int × List Char)) (hne : strands ≠ [])
    (hbound : ∀ q ∈ strands,
      i64Min ≤ strandSum (build_failure_links (buildTrie genes health)) q ∧
      strandSum (build_failure_links (buildTrie genes health)) q ≤ i64Max) :
    ∃ mn mx : Int,
      dna_health genes health strands = toString mn ++ " " ++ toString mx ∧
      mn ∈ strands.map (strandSum (build_failure_links (buildTrie genes health))) ∧
      mx ∈ strands.map (strandSum (build_failure_links (buildTrie genes health))) ∧
      ∀ x ∈ strands.map (strandSum (build_failure_links (buildTrie genes health))),
        mn ≤ x ∧ x ≤ mx := by
  set l := strands.map (strandSum (build_failure_links (buildTrie genes health)))
    with hl
  have hlne : l ≠ [] := by
    rw [hl]
    intro hmap
    exact hne (List.map_eq_nil_iff.mp hmap)
  have hb1 : ∀ x ∈ l, x ≤ i64Max := by
    intro x hx
    obtain ⟨q, hq, rfl⟩ := List.mem_map.mp hx
    exact (hbound q hq).2
  have hb2 : ∀ x ∈ l, i64Min ≤ x := by
    intro x hx
    obtain ⟨q, hq, rfl⟩ := List.mem_map.mp hx
    exact (hbound q hq).1
  obtain ⟨hmem1, hle1⟩ := foldl_min_attains hlne hb1
  obtain ⟨hmem2, hge2⟩ := foldl_max_attains hlne hb2
  exact ⟨l.foldl min i64Max, l.foldl max i64Min, dna_health_eq genes health strands,
    hmem1, hmem2, fun x hx => ⟨hle1 x hx, hge2 x hx⟩⟩

/-- C8, witness: three queries with sums 5, 2 and 9 report 2 9. -/
theorem claim_C8_witness :
    ([((0 : Int), (0 : Int), "a".toList), (1, 1, "b".toList), (2, 2, "c".toList)]
      ≠ ([] : List (Int × Int × List Char))) ∧
    (∀ q ∈ [((0 : Int), (0 : Int), "a".toList), (1, 1, "b".toList), (2, 2, "c".toList)],
      i64Min ≤ strandSum (build_failure_links
        (buildTrie ["a".toList, "b".toList, "c".toList] [5, 2, 9])) q ∧
      strandSum (build_failure_links
        (buildTrie ["a".toList, "b".toList, "c".toList] [5, 2, 9])) q ≤ i64Max) ∧
    (∃ mn mx : Int,
      dna_health ["a".toList, "b".toList, "c".toList] [5, 2, 9]
          [((0 : Int), (0 : Int), "a".toList), (1, 1, "b".toList), (2, 2, "c".toList)]
        = toString mn ++ " " ++ toString mx ∧
      mn ∈ [((0 : Int), (0 : Int), "a".toList), (1, 1, "b".toList),
          (2, 2, "c".toList)].map (strandSum (build_failure_links
            (buildTrie ["a".toList, "b".toList, "c".toList] [5, 2, 9]))) ∧
      mx ∈ [((0 : Int), (0 : Int), "a".toList), (1, 1, "b".toList),
          (2, 2, "c".toList)].map (strandSum (build_failure_links
            (buildTrie ["a".toList, "b".toList, "c".toList] [5, 2, 9]))) ∧
      ∀ x ∈ [((0 : Int), (0 : Int), "a".toList), (1, 1, "b".toList),
          (2, 2, "c".toList)].map (strandSum (build_failure_links
            (buildTrie ["a".toList, "b".toList, "c".toList] [5, 2, 9]))),
        mn ≤ x ∧ x ≤ mx) ∧
    dna_health ["a".toList, "b".toList, "c".toList] [5, 2, 9]
        [((0 : Int), (0 : Int), "a".toList), (1, 1, "b".toList), (2, 2, "c".toList)]
      = "2 9" := by
  refine ⟨by decide, by decide, ?_, by rfl⟩
  exact claim_C8 ["a".toList, "b".toList, "c".toList] [5, 2, 9]
    [((0 : Int), (0 : Int), "a".toList), (1, 1, "b".toList), (2, 2, "c".toList)]
    (by decide) (by decide)

/-- C9: a pattern of length zero is accepted by add_pattern, which appends
its (index, weight) entry to the root output list; and that weight never
reaches any query sum, since changing the weights of empty patterns leaves
every search result unchanged. -/
theorem claim_C9 :
    (∀ (t : Trie) (i : Nat) (w : Int),
      add_pattern t [] i w
        = t.set 0 { getNode t 0 with output := (getNode t 0).output ++ [(i, w)] }) ∧
    (∀ (genes : List (List Char)) (health health2 : List Int),
      (∀ j, j < genes.length → genes.getD j [] ≠ [] →
        health.getD j 0 = health2.getD j 0) →
      ∀ (s e : Nat) (text : List Char),
        search (build_failure_links (buildTrie genes health)) text s e
          = search (build_failure_links (buildTrie genes health2)) text s e) := by
  constructor
  · intro t i w
    rfl
  · intro genes health health2 hag s e text
    rw [search_linked, search_linked]
    refine Finset.sum_congr rfl fun i _ => Finset.sum_congr rfl fun j hj => ?_
    have hj2 := Finset.mem_range.mp hj
    by_cases hc : genes.getD j [] ≠ [] ∧ genes.getD j [] <+: text.drop i
      ∧ s ≤ j ∧ j ≤ e
    · rw [if_pos hc, if_pos hc, hag j hj2 hc.1]
    · rw [if_neg hc, if_neg hc]

/-- C9, witness: both parts at concrete instances; the empty pattern of
weight 7 versus weight 100 leaves the query sum unchanged. -/
theorem claim_C9_witness :
    add_pattern [TrieNode.new] [] 0 5 = [⟨[], 0, [(0, 5)]⟩] ∧
    search (build_failure_links (buildTrie [[], "a".toList] [7, 2]))
        ("a".toList) 0 1
      = search (build_failure_links (buildTrie [[], "a".toList] [100, 2]))
          ("a".toList) 0 1 := by
  constructor
  · rw [claim_C9.1 [TrieNode.new] 0 5]
    rfl
  · refine claim_C9.2 [[], "a".toList] [7, 2] [100, 2] ?_ 0 1 ("a".toList)
    intro j hj hne
    match j, hj with
    | 0, _ => exact absurd rfl hne
    | 1, _ => rfl

/-- C10: with an empty query batch, dna_health performs no searches and
renders the untouched initial bounds, the i64 maximum followed by the i64
minimum. -/
theorem claim_C10 (genes : List (List Char)) (health : List Int) :
    dna_health genes health [] = "9223372036854775807 -9223372036854775808" := by
  rw [dna_health_eq]
  rfl

end DnaHealth
